import Mathlib

/-!
Verification of the path-tracer's CPU core: the BVH builder (`src/scene/bvh.rs`),
the progressive-rendering accumulator (`src/renderer.rs`), and the scene's
ray-sphere picking and gizmo sync (`src/scene/mod.rs`, `src/scene/sphere.rs`).

Modelling conventions:
* `f32` coordinates are idealized as exact numbers: the BVH builder performs only
  comparisons, `min`/`max` and one exact halving, so it is embedded over `ℚ`;
  the ray-sphere intersection takes a square root, so it is embedded over `ℝ`.
* `u32`/`usize` counters and indices are embedded as `ℕ`; every value the code
  produces is bounded by a list length, so no wraparound is modelled (the Rust
  code would in any case break down before reaching 2^32 triangles).
* Every panicking access (`expect`, `unwrap`, slice indexing, `Vec::swap`) is
  embedded as an `Option`-returning lookup; a `none` result models a panic.
-/

namespace PathTracer

/-- Three-component vector, modelling cgmath's `Vector3<f32>` with exact
coordinates. -/
structure Vec3 where
  x : ℚ
  y : ℚ
  z : ℚ
  deriving DecidableEq, Repr

/-- Component access, modelling `Vector3`'s `v[axis]` indexing. -/
def Vec3.get (v : Vec3) (axis : Fin 3) : ℚ :=
  match axis with
  | 0 => v.x
  | 1 => v.y
  | 2 => v.z

/-- The `Material` enum of `src/scene/mod.rs`. -/
inductive Material where
  | Diffuse
  | Metal
  | Dielectric
  | Gizmo
  deriving DecidableEq, Repr

/-- The `Triangle` struct of `src/model.rs`: three vertex positions, three
vertex normals, an albedo and a material tag. -/
structure Triangle where
  a : Vec3
  b : Vec3
  c : Vec3
  na : Vec3
  nb : Vec3
  nc : Vec3
  albedo : Vec3
  material : Material
  deriving DecidableEq, Repr

/-- `Triangle::vertices` of `src/model.rs`. -/
def Triangle.vertices (t : Triangle) : List Vec3 :=
  [t.a, t.b, t.c]

/-- The value of `f32::MAX`, which is `(2 - 2⁻²³) · 2¹²⁷`. -/
def f32MAX : ℚ := 2 ^ 128 - 2 ^ 104

/-- The value of `f32::MIN = -f32::MAX`. -/
def f32MIN : ℚ := -f32MAX

/-- The BVH `Node` struct of `src/scene/bvh.rs`. -/
structure Node where
  min_corner : Vec3
  left_child_index : ℕ
  max_corner : Vec3
  triangle_count : ℕ
  deriving DecidableEq, Repr

/-- `Node`'s `Default` impl: corners at `f32::MAX`/`f32::MIN`, indices zero. -/
def Node.default : Node :=
  { min_corner := ⟨f32MAX, f32MAX, f32MAX⟩
    left_child_index := 0
    max_corner := ⟨f32MIN, f32MIN, f32MIN⟩
    triangle_count := 0 }

/-- The `Bvh` struct of `src/scene/bvh.rs`. -/
structure Bvh where
  nodes : List Node
  triangle_indices : List ℕ
  nodes_used : ℕ
  deriving DecidableEq, Repr

/-- A checked in-place node update, modelling
`self.nodes.get_mut(i).expect("Node index out of bounds")` followed by field
assignments; `none` models the panic. -/
def Bvh.modifyNode (bvh : Bvh) (i : ℕ) (f : Node → Node) : Option Bvh :=
  match bvh.nodes[i]? with
  | none => none
  | some n => some { bvh with nodes := bvh.nodes.set i (f n) }

/-- One step of the per-vertex `min`/`max` folds in `Bvh::update_bounds`. -/
def includeVertex (n : Node) (v : Vec3) : Node :=
  { n with
    min_corner := ⟨min n.min_corner.x v.x, min n.min_corner.y v.y, min n.min_corner.z v.z⟩
    max_corner := ⟨max n.max_corner.x v.x, max n.max_corner.y v.y, max n.max_corner.z v.z⟩ }

/-- Folding a vertex list into a node's corners, as the inner
`triangle.vertices().iter().for_each(...)` loop of `Bvh::update_bounds` does. -/
def growBounds (n : Node) (vs : List Vec3) : Node :=
  vs.foldl includeVertex n

/-- The triangles referenced by positions `[first, first+count)` of the index
permutation, in order; `none` models the
`triangles.get(...).expect("Triangle index out of bounds")` panic (or an
out-of-range read of `triangle_indices` itself). -/
def rangeTriangles (triangles : List Triangle) (ti : List ℕ) (first count : ℕ) :
    Option (List Triangle) :=
  (List.range count).mapM fun i =>
    match ti[first + i]? with
    | none => none
    | some q => triangles[q]?

/-- `Bvh::update_bounds` of `src/scene/bvh.rs`: fold every vertex of every
triangle in the node's range into the node's corners. -/
def Bvh.update_bounds (bvh : Bvh) (node_index : ℕ) (triangles : List Triangle) :
    Option Bvh :=
  match bvh.nodes[node_index]? with
  | none => none
  | some node =>
    match rangeTriangles triangles bvh.triangle_indices
        node.left_child_index node.triangle_count with
    | none => none
    | some ts =>
      some { bvh with
        nodes := bvh.nodes.set node_index
          (ts.foldl (fun n t => growBounds n t.vertices) node) }

/-- The partition predicate of `Bvh::subdivide`: `.any(|v| v[axis] < split_position)`. -/
def anyVertexBelow (t : Triangle) (axis : Fin 3) (pos : ℚ) : Bool :=
  t.vertices.any fun v => decide (v.get axis < pos)

/-- The two-pointer partition loop of `Bvh::subdivide` (`while i < j { ... }`).
Returns the permuted index list and the final value of `i`; `none` models an
out-of-bounds index read or `Vec::swap` panic, or fuel exhaustion. The loop is
given structural fuel so that concrete runs reduce in the kernel: each
iteration narrows `j - i` by one, so any fuel above `j - i` suffices
(`subdivide` passes the node's triangle count, which is proved sufficient). -/
def partitionLoop (triangles : List Triangle) (axis : Fin 3) (pos : ℚ) :
    ℕ → List ℕ → ℕ → ℕ → Option (List ℕ × ℕ)
  | 0, _, _, _ => none
  | fuel + 1, ti, i, j =>
    if i < j then
      match ti[i]? with
      | none => none
      | some q =>
        match triangles[q]? with
        | none => none
        | some tri =>
          if anyVertexBelow tri axis pos then
            partitionLoop triangles axis pos fuel ti (i + 1) j
          else
            match ti[j]? with
            | none => none
            | some r =>
              partitionLoop triangles axis pos fuel ((ti.set i r).set j q) i (j - 1)
    else
      some (ti, i)

/-- The componentwise extent `max_corner - min_corner` computed in
`Bvh::subdivide`. -/
def extent (n : Node) : Vec3 :=
  ⟨n.max_corner.x - n.min_corner.x,
   n.max_corner.y - n.min_corner.y,
   n.max_corner.z - n.min_corner.z⟩

/-- The split-axis choice of `Bvh::subdivide`: start at X, move to Y then Z only
on a strictly larger extent. -/
def chosenAxis (n : Node) : Fin 3 :=
  let e := extent n
  let a1 : Fin 3 := if e.get 1 > e.get 0 then 1 else 0
  if e.get 2 > e.get a1 then 2 else a1

/-- The split position of `Bvh::subdivide`:
`node.min_corner[axis] + extent[axis] / 2.0`. -/
def splitPos (n : Node) : ℚ :=
  n.min_corner.get (chosenAxis n) + (extent n).get (chosenAxis n) / 2

/-- `Bvh::subdivide` of `src/scene/bvh.rs`, with an explicit fuel argument to
express the recursion (the fuel supplied by `from_triangles` is proved
sufficient); `none` models a panic or fuel exhaustion. -/
def Bvh.subdivide (triangles : List Triangle) : ℕ → Bvh → ℕ → Option Bvh
  | 0, _, _ => none
  | fuel + 1, bvh, node_index =>
    match bvh.nodes[node_index]? with
    | none => none
    | some node =>
      if node.triangle_count ≤ 2 then some bvh
      else
        match partitionLoop triangles (chosenAxis node) (splitPos node)
            node.triangle_count bvh.triangle_indices node.left_child_index
            (node.left_child_index + node.triangle_count - 1) with
        | none => none
        | some (ti, i) =>
          let left_count := i - node.left_child_index
          let bvh1 := { bvh with triangle_indices := ti }
          if left_count = 0 ∨ left_count = node.triangle_count then some bvh1
          else
            let left_child_index := bvh1.nodes_used
            let right_child_index := bvh1.nodes_used + 1
            let bvh2 := { bvh1 with nodes_used := bvh1.nodes_used + 2 }
            match bvh2.modifyNode left_child_index (fun n =>
                { n with left_child_index := node.left_child_index
                         triangle_count := left_count }) with
            | none => none
            | some bvh3 =>
              match bvh3.modifyNode right_child_index (fun n =>
                  { n with left_child_index := i
                           triangle_count := node.triangle_count - left_count }) with
              | none => none
              | some bvh4 =>
                match bvh4.modifyNode node_index (fun n =>
                    { n with left_child_index := left_child_index
                             triangle_count := 0 }) with
                | none => none
                | some bvh5 =>
                  match bvh5.update_bounds left_child_index triangles with
                  | none => none
                  | some bvh6 =>
                    match bvh6.update_bounds right_child_index triangles with
                    | none => none
                    | some bvh7 =>
                      match Bvh.subdivide triangles fuel bvh7 left_child_index with
                      | none => none
                      | some bvh8 => Bvh.subdivide triangles fuel bvh8 right_child_index

/-- `Bvh::from_triangles` of `src/scene/bvh.rs`. For an empty input the Rust
code panics at `triangles.len() * 2 - 1` (debug: subtraction overflow; release:
the wrapped length makes the `vec!` allocation panic); here the truncated `ℕ`
subtraction yields an empty node list, so the root access fails and the
function returns `none`, modelling that panic. -/
def Bvh.from_triangles (triangles : List Triangle) : Option Bvh :=
  let bvh : Bvh :=
    { nodes := List.replicate (triangles.length * 2 - 1) Node.default
      triangle_indices := List.range triangles.length
      nodes_used := 0 }
  match bvh.modifyNode 0 (fun n =>
      { n with left_child_index := 0, triangle_count := triangles.length }) with
  | none => none
  | some bvh1 =>
    let bvh2 := { bvh1 with nodes_used := 1 }
    match bvh2.update_bounds 0 triangles with
    | none => none
    | some bvh3 => Bvh.subdivide triangles (triangles.length + 1) bvh3 0

/-- The zero vector. -/
def zeroVec : Vec3 := ⟨0, 0, 0⟩

/-- A degenerate triangle spanning `[p, q]` on the X axis (all other
coordinates zero). -/
def xTriangle (p q : ℚ) : Triangle :=
  { a := ⟨p, 0, 0⟩, b := ⟨q, 0, 0⟩, c := ⟨p, 0, 0⟩
    na := zeroVec, nb := zeroVec, nc := zeroVec
    albedo := zeroVec, material := Material.Diffuse }

/-- Three triangles whose build splits the root 2/1 on the X axis at position 2
while every one of them has a vertex strictly below 2. -/
def cexTriangles : List Triangle :=
  [xTriangle 0 4, xTriangle 0 1, xTriangle 0 2]

/-! ## Verification infrastructure: slices, swaps, containment -/

/-- The sub-list at positions `[first, first + count)`. -/
def slice {α : Type _} (l : List α) (first count : ℕ) : List α :=
  (l.drop first).take count

theorem getElem?_slice {α : Type _} (l : List α) (f c m : ℕ) :
    (slice l f c)[m]? = if m < c then l[f + m]? else none := by
  simp [slice, List.getElem?_take, List.getElem?_drop]

theorem slice_eq_of_agree {α : Type _} {l₁ l₂ : List α} {f c : ℕ}
    (h : ∀ m, f ≤ m → m < f + c → l₁[m]? = l₂[m]?) :
    slice l₁ f c = slice l₂ f c := by
  apply List.ext_getElem?
  intro m
  rw [getElem?_slice, getElem?_slice]
  split
  · exact h (f + m) (by omega) (by omega)
  · rfl

theorem slice_add {α : Type _} (l : List α) (f c₁ c₂ : ℕ) :
    slice l f (c₁ + c₂) = slice l f c₁ ++ slice l (f + c₁) c₂ := by
  simp [slice, List.take_add, List.drop_drop]

theorem mem_slice_of_getElem? {α : Type _} {l : List α} {f c m : ℕ} {a : α}
    (h1 : f ≤ m) (h2 : m < f + c) (h : l[m]? = some a) : a ∈ slice l f c := by
  have hm : (slice l f c)[m - f]? = some a := by
    rw [getElem?_slice, if_pos (by omega), show f + (m - f) = m by omega, h]
  obtain ⟨hlt, he⟩ := List.getElem?_eq_some.mp hm
  exact he ▸ List.getElem_mem hlt

theorem exists_getElem?_of_mem_slice {α : Type _} {l : List α} {f c : ℕ} {a : α}
    (h : a ∈ slice l f c) : ∃ m, f ≤ m ∧ m < f + c ∧ l[m]? = some a := by
  obtain ⟨k, hk⟩ := List.mem_iff_getElem?.mp h
  rw [getElem?_slice] at hk
  by_cases hkc : k < c
  · rw [if_pos hkc] at hk
    exact ⟨f + k, by omega, by omega, hk⟩
  · rw [if_neg hkc] at hk
    exact absurd hk (by simp)

theorem cons_set_perm {α : Type _} : ∀ (l : List α) (k : ℕ) (x b : α),
    l[k]? = some b → (b :: l.set k x).Perm (x :: l)
  | [], k, x, b, h => by simp at h
  | y :: tl, 0, x, b, h => by
    simp only [List.getElem?_cons_zero, Option.some.injEq] at h
    subst h
    simpa using List.Perm.swap x y tl
  | y :: tl, k + 1, x, b, h => by
    simp only [List.getElem?_cons_succ] at h
    rw [show (y :: tl).set (k + 1) x = y :: tl.set k x by simp]
    exact (List.Perm.swap y b (tl.set k x)).trans
      (((cons_set_perm tl k x b h).cons y).trans (List.Perm.swap x y tl))

theorem set_set_swap_perm {α : Type _} : ∀ (l : List α) (i j : ℕ) (a b : α),
    i < j → l[i]? = some a → l[j]? = some b → ((l.set i b).set j a).Perm l
  | [], _, _, _, _, _, ha, _ => by simp at ha
  | y :: tl, 0, j, a, b, hij, ha, hb => by
    obtain ⟨k, rfl⟩ : ∃ k, j = k + 1 := ⟨j - 1, by omega⟩
    simp only [List.getElem?_cons_zero, Option.some.injEq] at ha
    simp only [List.getElem?_cons_succ] at hb
    subst ha
    simpa using cons_set_perm tl k y b hb
  | y :: tl, i + 1, j, a, b, hij, ha, hb => by
    obtain ⟨k, rfl⟩ : ∃ k, j = k + 1 := ⟨j - 1, by omega⟩
    simp only [List.getElem?_cons_succ] at ha hb
    have ih := set_set_swap_perm tl i k a b (by omega) ha hb
    simpa using ih.cons y

/-- Componentwise order on vectors (`min_corner ≤ v ≤ max_corner`). -/
def vecLE (u v : Vec3) : Prop :=
  u.x ≤ v.x ∧ u.y ≤ v.y ∧ u.z ≤ v.z

instance (u v : Vec3) : Decidable (vecLE u v) :=
  inferInstanceAs (Decidable (u.x ≤ v.x ∧ u.y ≤ v.y ∧ u.z ≤ v.z))

theorem vecLE_trans {u v w : Vec3} (h1 : vecLE u v) (h2 : vecLE v w) : vecLE u w :=
  ⟨le_trans h1.1 h2.1, le_trans h1.2.1 h2.2.1, le_trans h1.2.2 h2.2.2⟩

/-- A node's AABB contains every vertex of a triangle, componentwise. -/
def nodeContains (n : Node) (t : Triangle) : Prop :=
  ∀ v ∈ t.vertices, vecLE n.min_corner v ∧ vecLE v n.max_corner

instance (n : Node) (t : Triangle) : Decidable (nodeContains n t) :=
  inferInstanceAs (Decidable (∀ v ∈ t.vertices, vecLE n.min_corner v ∧ vecLE v n.max_corner))

/-- Every triangle referenced through positions `[first, first + count)` of the
permutation lies inside the node's AABB. -/
def boundsContain (triangles : List Triangle) (ti : List ℕ) (n : Node)
    (first count : ℕ) : Prop :=
  ∀ q ∈ slice ti first count, ∀ t, triangles[q]? = some t → nodeContains n t

theorem boundsContain_of_perm {triangles : List Triangle} {ti ti' : List ℕ}
    {n : Node} {f c : ℕ} (hp : (slice ti' f c).Perm (slice ti f c))
    (h : boundsContain triangles ti n f c) : boundsContain triangles ti' n f c :=
  fun q hq => h q (hp.mem_iff.mp hq)

theorem includeVertex_min_le_self (n : Node) (v : Vec3) :
    vecLE (includeVertex n v).min_corner n.min_corner :=
  ⟨min_le_left _ _, min_le_left _ _, min_le_left _ _⟩

theorem includeVertex_min_le_vertex (n : Node) (v : Vec3) :
    vecLE (includeVertex n v).min_corner v :=
  ⟨min_le_right _ _, min_le_right _ _, min_le_right _ _⟩

theorem includeVertex_max_ge_self (n : Node) (v : Vec3) :
    vecLE n.max_corner (includeVertex n v).max_corner :=
  ⟨le_max_left _ _, le_max_left _ _, le_max_left _ _⟩

theorem includeVertex_max_ge_vertex (n : Node) (v : Vec3) :
    vecLE v (includeVertex n v).max_corner :=
  ⟨le_max_right _ _, le_max_right _ _, le_max_right _ _⟩

theorem includeVertex_left_child_index (n : Node) (v : Vec3) :
    (includeVertex n v).left_child_index = n.left_child_index := rfl

theorem includeVertex_triangle_count (n : Node) (v : Vec3) :
    (includeVertex n v).triangle_count = n.triangle_count := rfl

theorem growBounds_left_child_index (vs : List Vec3) : ∀ (n : Node),
    (growBounds n vs).left_child_index = n.left_child_index := by
  induction vs with
  | nil => intro n; rfl
  | cons v vs ih => intro n; simpa [growBounds] using ih (includeVertex n v)

theorem growBounds_triangle_count (vs : List Vec3) : ∀ (n : Node),
    (growBounds n vs).triangle_count = n.triangle_count := by
  induction vs with
  | nil => intro n; rfl
  | cons v vs ih => intro n; simpa [growBounds] using ih (includeVertex n v)

theorem growBounds_min_le_self (vs : List Vec3) : ∀ (n : Node),
    vecLE (growBounds n vs).min_corner n.min_corner := by
  induction vs with
  | nil => intro n; exact ⟨le_rfl, le_rfl, le_rfl⟩
  | cons v vs ih =>
    intro n
    exact vecLE_trans (ih (includeVertex n v)) (includeVertex_min_le_self n v)

theorem growBounds_max_ge_self (vs : List Vec3) : ∀ (n : Node),
    vecLE n.max_corner (growBounds n vs).max_corner := by
  induction vs with
  | nil => intro n; exact ⟨le_rfl, le_rfl, le_rfl⟩
  | cons v vs ih =>
    intro n
    exact vecLE_trans (includeVertex_max_ge_self n v) (ih (includeVertex n v))

theorem growBounds_contains (vs : List Vec3) : ∀ (n : Node), ∀ v ∈ vs,
    vecLE (growBounds n vs).min_corner v ∧ vecLE v (growBounds n vs).max_corner := by
  induction vs with
  | nil => intro n v hv; simp at hv
  | cons w vs ih =>
    intro n v hv
    rcases List.mem_cons.mp hv with rfl | hv
    · constructor
      · exact vecLE_trans (growBounds_min_le_self vs (includeVertex n v))
          (includeVertex_min_le_vertex n v)
      · exact vecLE_trans (includeVertex_max_ge_vertex n v)
          (growBounds_max_ge_self vs (includeVertex n v))
    · exact ih (includeVertex n w) v hv

theorem growBounds_append (n : Node) (vs ws : List Vec3) :
    growBounds (growBounds n vs) ws = growBounds n (vs ++ ws) := by
  simp [growBounds, List.foldl_append]

/-- The node-level fold of `update_bounds` over a triangle list. -/
def foldGrow (n : Node) (ts : List Triangle) : Node :=
  ts.foldl (fun n t => growBounds n t.vertices) n

theorem foldGrow_eq_growBounds (ts : List Triangle) : ∀ (n : Node),
    foldGrow n ts = growBounds n (ts.flatMap Triangle.vertices) := by
  induction ts with
  | nil => intro n; rfl
  | cons t ts ih =>
    intro n
    simp only [foldGrow, List.foldl_cons, List.flatMap_cons]
    rw [show List.foldl (fun n t => growBounds n t.vertices) (growBounds n t.vertices) ts =
      foldGrow (growBounds n t.vertices) ts from rfl, ih, growBounds_append]

theorem foldGrow_contains (n : Node) (ts : List Triangle) :
    ∀ t ∈ ts, nodeContains (foldGrow n ts) t := by
  intro t ht v hv
  rw [foldGrow_eq_growBounds]
  exact growBounds_contains _ n v (List.mem_flatMap.mpr ⟨t, ht, hv⟩)

theorem foldGrow_left_child_index (n : Node) (ts : List Triangle) :
    (foldGrow n ts).left_child_index = n.left_child_index := by
  rw [foldGrow_eq_growBounds]; exact growBounds_left_child_index _ n

theorem foldGrow_triangle_count (n : Node) (ts : List Triangle) :
    (foldGrow n ts).triangle_count = n.triangle_count := by
  rw [foldGrow_eq_growBounds]; exact growBounds_triangle_count _ n

/-! ## The partition loop specification -/

/-- The partition predicate read through a triangle index. -/
def belowIdx (triangles : List Triangle) (axis : Fin 3) (pos : ℚ) (q : ℕ) : Bool :=
  match triangles[q]? with
  | some t => anyVertexBelow t axis pos
  | none => false

theorem partitionLoop_spec (triangles : List Triangle) (axis : Fin 3) (pos : ℚ) :
    ∀ (fuel : ℕ) (ti : List ℕ) (i j : ℕ), i ≤ j → j < ti.length →
    (∀ q ∈ ti, q < triangles.length) → j - i < fuel →
    ∃ ti' p, partitionLoop triangles axis pos fuel ti i j = some (ti', p) ∧
      i ≤ p ∧ p ≤ j ∧ ti'.length = ti.length ∧ ti'.Perm ti ∧
      (∀ m, m < i ∨ j < m → ti'[m]? = ti[m]?) ∧
      (∀ m, i ≤ m → m < p → ∀ q, ti'[m]? = some q →
        belowIdx triangles axis pos q = true) ∧
      (∀ m, p < m → m ≤ j → ∀ q, ti'[m]? = some q →
        belowIdx triangles axis pos q = false) := by
  intro fuel
  induction fuel with
  | zero => intro ti i j _ _ _ hf; omega
  | succ fuel ih =>
    intro ti i j hij hjlen hmem hf
    by_cases hlt : i < j
    · have hi_lt : i < ti.length := by omega
      have hti : ti[i]? = some ti[i] := List.getElem?_eq_getElem hi_lt
      have hq_lt : ti[i] < triangles.length := hmem _ (List.getElem_mem hi_lt)
      have htri : triangles[ti[i]]? = some triangles[ti[i]] :=
        List.getElem?_eq_getElem hq_lt
      by_cases hpred : anyVertexBelow triangles[ti[i]] axis pos = true
      · obtain ⟨ti', p, hrun, hip, hpj, hlen, hperm, hout, hleft, hright⟩ :=
          ih ti (i + 1) j hlt hjlen hmem (by omega)
        have hstep : partitionLoop triangles axis pos (fuel + 1) ti i j =
            partitionLoop triangles axis pos fuel ti (i + 1) j := by
          simp [partitionLoop, hlt, hti, htri, hpred]
        refine ⟨ti', p, hstep.trans hrun, by omega, hpj, hlen, hperm, ?_, ?_, hright⟩
        · intro m hm
          exact hout m (by omega)
        · intro m hm1 hm2 q hq
          rcases Nat.eq_or_lt_of_le hm1 with heq | hm1'
          · rw [← heq] at hq
            rw [hout i (by omega), hti] at hq
            cases hq
            simpa [belowIdx, htri] using hpred
          · exact hleft m hm1' hm2 q hq
      · have hj_lt : j < ti.length := hjlen
        have htj : ti[j]? = some ti[j] := List.getElem?_eq_getElem hj_lt
        have hswap : ((ti.set i ti[j]).set j ti[i]).Perm ti :=
          set_set_swap_perm ti i j ti[i] ti[j] hlt hti htj
        have hlen2 : ((ti.set i ti[j]).set j ti[i]).length = ti.length := by
          simp
        obtain ⟨ti', p, hrun, hip, hpj, hlen, hperm, hout, hleft, hright⟩ :=
          ih ((ti.set i ti[j]).set j ti[i]) i (j - 1) (by omega) (by omega)
            (fun q hq => hmem q (hswap.mem_iff.mp hq)) (by omega)
        have hstep : partitionLoop triangles axis pos (fuel + 1) ti i j =
            partitionLoop triangles axis pos fuel
              ((ti.set i ti[j]).set j ti[i]) i (j - 1) := by
          simp [partitionLoop, hlt, hti, htri, hpred, htj]
        refine ⟨ti', p, hstep.trans hrun, hip, by omega, hlen.trans hlen2,
          hperm.trans hswap, ?_, hleft, ?_⟩
        · intro m hm
          rw [hout m (by omega), List.getElem?_set_ne (by omega),
            List.getElem?_set_ne (by omega)]
        · intro m hm1 hm2 q hq
          rcases Nat.lt_or_ge m j with hmj | hmj
          · exact hright m hm1 (by omega) q hq
          · have hmj' : m = j := by omega
            subst hmj'
            rw [hout m (by omega), List.getElem?_set_self (by simpa using hj_lt)] at hq
            cases hq
            simp only [belowIdx, htri]
            simpa using hpred
    · refine ⟨ti, i, ?_, le_rfl, hij, rfl, List.Perm.refl ti, fun m _ => rfl, ?_, ?_⟩
      · simp [partitionLoop, hlt]
      · intro m hm1 hm2 q hq
        omega
      · intro m hm1 hm2 q hq
        omega

/-! ## The update_bounds specification -/

theorem mapM_option_spec {α β : Type _} (f : α → Option β) :
    ∀ (l : List α), (∀ x ∈ l, ∃ y, f x = some y) →
    ∃ ys, l.mapM f = some ys ∧ ∀ x ∈ l, ∀ y, f x = some y → y ∈ ys := by
  intro l
  induction l with
  | nil => exact fun _ => ⟨[], rfl, by simp⟩
  | cons a l ih =>
    intro h
    obtain ⟨y, hy⟩ := h a (by simp)
    obtain ⟨ys, hys, hmem⟩ := ih fun x hx => h x (by simp [hx])
    refine ⟨y :: ys, ?_, ?_⟩
    · rw [List.mapM_cons, hy, hys]; rfl
    · intro x hx z hz
      rcases List.mem_cons.mp hx with rfl | hx'
      · rw [hy] at hz; cases hz; exact List.mem_cons_self _ _
      · exact List.mem_cons_of_mem _ (hmem x hx' z hz)

theorem rangeTriangles_spec {triangles : List Triangle} {ti : List ℕ}
    {first count : ℕ} (hlen : first + count ≤ ti.length)
    (hmem : ∀ q ∈ ti, q < triangles.length) :
    ∃ ts, rangeTriangles triangles ti first count = some ts ∧
      ∀ q ∈ slice ti first count, ∀ t, triangles[q]? = some t → t ∈ ts := by
  have he : ∀ i ∈ List.range count, ∃ y,
      (match ti[first + i]? with
        | none => none
        | some q => triangles[q]?) = some y := by
    intro i hi
    have hi' : i < count := List.mem_range.mp hi
    have h1 : first + i < ti.length := by omega
    have h2 : ti[first + i]? = some ti[first + i] := List.getElem?_eq_getElem h1
    have h3 : ti[first + i] < triangles.length := hmem _ (List.getElem_mem h1)
    exact ⟨triangles[ti[first + i]], by rw [h2]; exact List.getElem?_eq_getElem h3⟩
  obtain ⟨ts, hts, htsmem⟩ := mapM_option_spec _ (List.range count) he
  refine ⟨ts, hts, ?_⟩
  intro q hq t ht
  obtain ⟨m, hm1, hm2, hmq⟩ := exists_getElem?_of_mem_slice hq
  have hmem' := htsmem (m - first) (List.mem_range.mpr (by omega)) t
  apply hmem'
  rw [show first + (m - first) = m by omega, hmq]
  exact ht

theorem update_bounds_spec {bvh : Bvh} {nd : ℕ} {triangles : List Triangle}
    {n : Node} (hn : bvh.nodes[nd]? = some n)
    (hrange : n.left_child_index + n.triangle_count ≤ bvh.triangle_indices.length)
    (hmem : ∀ q ∈ bvh.triangle_indices, q < triangles.length) :
    ∃ n', bvh.update_bounds nd triangles =
        some { bvh with nodes := bvh.nodes.set nd n' } ∧
      n'.left_child_index = n.left_child_index ∧
      n'.triangle_count = n.triangle_count ∧
      boundsContain triangles bvh.triangle_indices n'
        n.left_child_index n.triangle_count := by
  obtain ⟨ts, hts, htsmem⟩ := rangeTriangles_spec hrange hmem
  refine ⟨foldGrow n ts, ?_, foldGrow_left_child_index n ts,
    foldGrow_triangle_count n ts, ?_⟩
  · simp only [Bvh.update_bounds, hn, hts]
    rfl
  · intro q hq t ht
    exact foldGrow_contains n ts t (htsmem q hq t ht)

/-! ## Slice permutation lemmas -/

theorem slice_perm_of_perm {l₁ l₂ : List ℕ} {f c : ℕ} (hperm : l₂.Perm l₁)
    (hout : ∀ m, m < f ∨ f + c ≤ m → l₂[m]? = l₁[m]?) :
    (slice l₂ f c).Perm (slice l₁ f c) := by
  have hdec : ∀ (l : List ℕ), l.take f ++ (slice l f c ++ l.drop (f + c)) = l := by
    intro l
    rw [slice, show l.drop (f + c) = (l.drop f).drop c by rw [List.drop_drop],
      List.take_append_drop, List.take_append_drop]
  have htake : l₂.take f = l₁.take f := by
    apply List.ext_getElem?
    intro m
    rw [List.getElem?_take, List.getElem?_take]
    split
    · exact hout m (Or.inl (by omega))
    · rfl
  have hdrop : l₂.drop (f + c) = l₁.drop (f + c) := by
    apply List.ext_getElem?
    intro m
    rw [List.getElem?_drop, List.getElem?_drop]
    exact hout (f + c + m) (Or.inr (by omega))
  have h2 := hperm
  rw [← hdec l₁, ← hdec l₂, htake, hdrop] at h2
  exact (List.perm_append_right_iff _).mp ((List.perm_append_left_iff _).mp h2)

theorem slice_perm_extend {l₁ l₂ : List ℕ} {f c a b : ℕ}
    (hfa : f ≤ a) (hab : a + b ≤ f + c)
    (hin : (slice l₂ a b).Perm (slice l₁ a b))
    (hout : ∀ m, m < a ∨ a + b ≤ m → l₂[m]? = l₁[m]?) :
    (slice l₂ f c).Perm (slice l₁ f c) := by
  have hc : c = (a - f) + (b + (f + c - (a + b))) := by omega
  rw [hc]
  rw [slice_add, slice_add, slice_add, slice_add,
    show f + (a - f) = a by omega]
  have h1 : slice l₂ f (a - f) = slice l₁ f (a - f) :=
    slice_eq_of_agree fun m hm1 hm2 => hout m (Or.inl (by omega))
  have h2 : slice l₂ (a + b) (f + c - (a + b)) =
      slice l₁ (a + b) (f + c - (a + b)) :=
    slice_eq_of_agree fun m hm1 hm2 => hout m (Or.inr (by omega))
  rw [h1, h2]
  exact List.Perm.append_left _ (List.Perm.append_right _ hin)

/-! ## Well-formed subtrees of a built BVH -/

/-- `SubtreeIn triangles bvh nd lo hi f c`: in `bvh`, node `nd` roots a
well-formed subtree covering exactly positions `[f, f + c)` of the index
permutation, all node indices of the subtree other than the root lying inside
`[lo, hi)`; every node of the subtree (root included) is either a non-empty
leaf or an internal node whose two children split its range, and every node's
AABB contains all triangles referenced through its range of the permutation. -/
inductive SubtreeIn (triangles : List Triangle) (bvh : Bvh) :
    ℕ → ℕ → ℕ → ℕ → ℕ → Prop where
  | leaf (nd lo hi f c : ℕ) (n : Node) :
      bvh.nodes[nd]? = some n →
      n.triangle_count = c → 0 < c →
      n.left_child_index = f →
      boundsContain triangles bvh.triangle_indices n f c →
      SubtreeIn triangles bvh nd lo hi f c
  | internal (nd lo hi f c k : ℕ) (n : Node) :
      bvh.nodes[nd]? = some n →
      n.triangle_count = 0 →
      0 < k → k < c →
      lo ≤ n.left_child_index → n.left_child_index + 1 < hi →
      SubtreeIn triangles bvh n.left_child_index lo hi f k →
      SubtreeIn triangles bvh (n.left_child_index + 1) lo hi (f + k) (c - k) →
      boundsContain triangles bvh.triangle_indices n f c →
      SubtreeIn triangles bvh nd lo hi f c

theorem SubtreeIn.mono {triangles : List Triangle} {bvh : Bvh}
    {nd lo hi f c lo' hi' : ℕ} (h : SubtreeIn triangles bvh nd lo hi f c)
    (hlo : lo' ≤ lo) (hhi : hi ≤ hi') :
    SubtreeIn triangles bvh nd lo' hi' f c := by
  induction h with
  | leaf nd lo hi f c n h1 h2 h3 h4 h5 =>
    exact .leaf nd lo' hi' f c n h1 h2 h3 h4 h5
  | internal nd lo hi f c k n h1 h2 h3 h4 h5 h6 h7 h8 h9 ih1 ih2 =>
    exact .internal nd lo' hi' f c k n h1 h2 h3 h4 (by omega) (by omega)
      (ih1 hlo hhi) (ih2 hlo hhi) h9

theorem SubtreeIn.stable {triangles : List Triangle} {bvh : Bvh}
    {nd lo hi f c : ℕ} (h : SubtreeIn triangles bvh nd lo hi f c) :
    ∀ {bvh' : Bvh}, bvh'.nodes[nd]? = bvh.nodes[nd]? →
    (∀ m, lo ≤ m → m < hi → bvh'.nodes[m]? = bvh.nodes[m]?) →
    (∀ m, f ≤ m → m < f + c →
      bvh'.triangle_indices[m]? = bvh.triangle_indices[m]?) →
    SubtreeIn triangles bvh' nd lo hi f c := by
  induction h with
  | leaf nd lo hi f c n h1 h2 h3 h4 h5 =>
    intro bvh' hnd hwin hti
    refine .leaf nd lo hi f c n (hnd.trans h1) h2 h3 h4 ?_
    rw [show (boundsContain triangles bvh'.triangle_indices n f c) =
      (boundsContain triangles bvh.triangle_indices n f c) by
        unfold boundsContain; rw [slice_eq_of_agree hti]]
    exact h5
  | internal nd lo hi f c k n h1 h2 h3 h4 h5 h6 h7 h8 h9 ih1 ih2 =>
    intro bvh' hnd hwin hti
    refine .internal nd lo hi f c k n (hnd.trans h1) h2 h3 h4 h5 h6 ?_ ?_ ?_
    · exact ih1 (hwin _ h5 (by omega)) hwin
        (fun m hm1 hm2 => hti m hm1 (by omega))
    · exact ih2 (hwin _ (by omega) h6) hwin
        (fun m hm1 hm2 => hti m (by omega) (by omega))
    · rw [show (boundsContain triangles bvh'.triangle_indices n f c) =
        (boundsContain triangles bvh.triangle_indices n f c) by
          unfold boundsContain; rw [slice_eq_of_agree hti]]
      exact h9

/-! ## Reading the final tree: reachable nodes and leaf ranges -/

/-- The node indices reachable from `nd` through the `left_child_index` /
`left_child_index + 1` links of internal nodes (fuel-bounded walk of the final
tree; any fuel at least the tree height gives the full set). -/
def reachableNodes (bvh : Bvh) : ℕ → ℕ → List ℕ
  | 0, _ => []
  | fuel + 1, nd =>
    nd ::
      (match bvh.nodes[nd]? with
      | none => []
      | some n =>
        if n.triangle_count = 0 then
          reachableNodes bvh fuel n.left_child_index ++
            reachableNodes bvh fuel (n.left_child_index + 1)
        else [])

/-- The `(first_triangle_index, triangle_count)` ranges of the leaves of the
subtree rooted at `nd`. -/
def subtreeLeafRanges (bvh : Bvh) : ℕ → ℕ → List (ℕ × ℕ)
  | 0, _ => []
  | fuel + 1, nd =>
    match bvh.nodes[nd]? with
    | none => []
    | some n =>
      if n.triangle_count = 0 then
        subtreeLeafRanges bvh fuel n.left_child_index ++
          subtreeLeafRanges bvh fuel (n.left_child_index + 1)
      else [(n.left_child_index, n.triangle_count)]

theorem SubtreeIn.leafRanges_cover {triangles : List Triangle} {bvh : Bvh}
    {nd lo hi f c : ℕ} (h : SubtreeIn triangles bvh nd lo hi f c) :
    ∀ fuel, c ≤ fuel →
      (subtreeLeafRanges bvh fuel nd).flatMap (fun pr => List.range' pr.1 pr.2) =
        List.range' f c := by
  induction h with
  | leaf nd lo hi f c n h1 h2 h3 h4 h5 =>
    intro fuel hfuel
    obtain ⟨fu, rfl⟩ : ∃ fu, fuel = fu + 1 := ⟨fuel - 1, by omega⟩
    simp only [subtreeLeafRanges, h1]
    rw [if_neg (by omega)]
    simp [h2, h4]
  | internal nd lo hi f c k n h1 h2 h3 h4 h5 h6 h7 h8 h9 ih1 ih2 =>
    intro fuel hfuel
    obtain ⟨fu, rfl⟩ : ∃ fu, fuel = fu + 1 := ⟨fuel - 1, by omega⟩
    simp only [subtreeLeafRanges, h1]
    rw [if_pos h2, List.flatMap_append, ih1 fu (by omega), ih2 fu (by omega)]
    have hr := List.range'_append f k (c - k) 1
    rw [one_mul, show c - k + k = c by omega] at hr
    exact hr

theorem SubtreeIn.reachable_spec {triangles : List Triangle} {bvh : Bvh}
    {nd lo hi f c : ℕ} (h : SubtreeIn triangles bvh nd lo hi f c) :
    ∀ fuel, c ≤ fuel → ∀ m ∈ reachableNodes bvh fuel nd,
      ∃ f' c', c' ≤ c ∧ SubtreeIn triangles bvh m lo hi f' c' := by
  induction h with
  | leaf nd lo hi f c n h1 h2 h3 h4 h5 =>
    intro fuel hfuel m hm
    obtain ⟨fu, rfl⟩ : ∃ fu, fuel = fu + 1 := ⟨fuel - 1, by omega⟩
    simp only [reachableNodes, h1] at hm
    rw [if_neg (by omega)] at hm
    rcases List.mem_cons.mp hm with rfl | hm'
    · exact ⟨f, c, le_rfl, .leaf m lo hi f c n h1 h2 h3 h4 h5⟩
    · simp at hm'
  | internal nd lo hi f c k n h1 h2 h3 h4 h5 h6 h7 h8 h9 ih1 ih2 =>
    intro fuel hfuel m hm
    obtain ⟨fu, rfl⟩ : ∃ fu, fuel = fu + 1 := ⟨fuel - 1, by omega⟩
    simp only [reachableNodes, h1] at hm
    rw [if_pos h2] at hm
    rcases List.mem_cons.mp hm with rfl | hm'
    · exact ⟨f, c, le_rfl, .internal m lo hi f c k n h1 h2 h3 h4 h5 h6 h7 h8 h9⟩
    · rcases List.mem_append.mp hm' with hml | hmr
      · obtain ⟨f', c', hle, hs⟩ := ih1 fu (by omega) m hml
        exact ⟨f', c', by omega, hs⟩
      · obtain ⟨f', c', hle, hs⟩ := ih2 fu (by omega) m hmr
        exact ⟨f', c', by omega, hs⟩

theorem SubtreeIn.boundsContain_of_root {triangles : List Triangle} {bvh : Bvh}
    {nd lo hi f c : ℕ} (h : SubtreeIn triangles bvh nd lo hi f c) :
    ∃ n, bvh.nodes[nd]? = some n ∧
      boundsContain triangles bvh.triangle_indices n f c := by
  cases h with
  | leaf nd lo hi f c n h1 h2 h3 h4 h5 => exact ⟨n, h1, h5⟩
  | internal nd lo hi f c k n h1 h2 h3 h4 h5 h6 h7 h8 h9 => exact ⟨n, h1, h9⟩

/-! ## The subdivide specification -/

theorem subdivide_spec (triangles : List Triangle) :
    ∀ (fuel : ℕ) (bvh : Bvh) (nd : ℕ) (n : Node),
    bvh.nodes[nd]? = some n →
    nd < bvh.nodes_used →
    bvh.nodes_used ≤ bvh.nodes.length →
    0 < n.triangle_count →
    n.left_child_index + n.triangle_count ≤ bvh.triangle_indices.length →
    (∀ q ∈ bvh.triangle_indices, q < triangles.length) →
    bvh.nodes_used + 2 * (n.triangle_count - 1) ≤ bvh.nodes.length →
    boundsContain triangles bvh.triangle_indices n n.left_child_index
      n.triangle_count →
    n.triangle_count ≤ fuel →
    ∃ bvh', Bvh.subdivide triangles fuel bvh nd = some bvh' ∧
      bvh'.nodes.length = bvh.nodes.length ∧
      bvh'.triangle_indices.length = bvh.triangle_indices.length ∧
      bvh'.triangle_indices.Perm bvh.triangle_indices ∧
      bvh.nodes_used ≤ bvh'.nodes_used ∧
      bvh'.nodes_used ≤ bvh.nodes_used + 2 * (n.triangle_count - 1) ∧
      (∀ m, m ≠ nd → m < bvh.nodes_used ∨ bvh'.nodes_used ≤ m →
        bvh'.nodes[m]? = bvh.nodes[m]?) ∧
      (∀ m, m < n.left_child_index ∨ n.left_child_index + n.triangle_count ≤ m →
        bvh'.triangle_indices[m]? = bvh.triangle_indices[m]?) ∧
      SubtreeIn triangles bvh' nd bvh.nodes_used bvh'.nodes_used
        n.left_child_index n.triangle_count := by
  intro fuel
  induction fuel with
  | zero =>
    intro bvh nd n hn hnd hused hc hrange hmem hslack hbc hfuel
    omega
  | succ fuel ih =>
    intro bvh nd n hn hnd hused hc hrange hmem hslack hbc hfuel
    by_cases hsmall : n.triangle_count ≤ 2
    · refine ⟨bvh, ?_, rfl, rfl, List.Perm.refl _, le_rfl, by omega,
        fun m _ _ => rfl, fun m _ => rfl,
        .leaf nd _ _ _ _ n hn rfl hc rfl hbc⟩
      simp [Bvh.subdivide, hn, hsmall]
    · have hbig : ¬ n.triangle_count ≤ 2 := hsmall
      obtain ⟨ti1, p, hrun, hip, hpj, hlen1, hperm1, hout1, hleft1, hright1⟩ :=
        partitionLoop_spec triangles (chosenAxis n) (splitPos n) n.triangle_count
          bvh.triangle_indices n.left_child_index
          (n.left_child_index + n.triangle_count - 1) (by omega) (by omega) hmem
          (by omega)
      have hmem1 : ∀ q ∈ ti1, q < triangles.length :=
        fun q hq => hmem q (hperm1.mem_iff.mp hq)
      have houtc : ∀ m, m < n.left_child_index ∨
          n.left_child_index + n.triangle_count ≤ m →
          ti1[m]? = bvh.triangle_indices[m]? :=
        fun m hm => hout1 m (by omega)
      by_cases hdeg : p - n.left_child_index = 0 ∨
          p - n.left_child_index = n.triangle_count
      · refine ⟨{ bvh with triangle_indices := ti1 }, ?_, rfl, hlen1, hperm1,
          le_rfl, Nat.le_add_right _ _, fun m _ _ => rfl, houtc, ?_⟩
        · simp [Bvh.subdivide, hn, hbig, hrun, hdeg]
        · exact .leaf nd _ _ _ _ n hn rfl hc rfl
            (boundsContain_of_perm (slice_perm_of_perm hperm1 houtc) hbc)
      · have hfp : n.left_child_index < p := by omega
        have hpc : p < n.left_child_index + n.triangle_count := by omega
        have hL : bvh.nodes_used < bvh.nodes.length := by omega
        have hR : bvh.nodes_used + 1 < bvh.nodes.length := by omega
        have hndL : nd ≠ bvh.nodes_used := by omega
        have hndR : nd ≠ bvh.nodes_used + 1 := by omega
        have hL0 : bvh.nodes[bvh.nodes_used]? = some bvh.nodes[bvh.nodes_used] :=
          List.getElem?_eq_getElem hL
        have hR0 : bvh.nodes[bvh.nodes_used + 1]? =
            some bvh.nodes[bvh.nodes_used + 1] := List.getElem?_eq_getElem hR
        have e3 : Bvh.modifyNode
            { nodes := bvh.nodes, triangle_indices := ti1, nodes_used := bvh.nodes_used + 2 }
            bvh.nodes_used
            (fun nn => { nn with left_child_index := n.left_child_index, triangle_count := p - n.left_child_index }) =
            some { nodes := bvh.nodes.set bvh.nodes_used { bvh.nodes[bvh.nodes_used] with left_child_index := n.left_child_index, triangle_count := p - n.left_child_index }, triangle_indices := ti1, nodes_used := bvh.nodes_used + 2 } := by
          simp [Bvh.modifyNode, hL0]
        have hR1 : (bvh.nodes.set bvh.nodes_used { bvh.nodes[bvh.nodes_used] with left_child_index := n.left_child_index, triangle_count := p - n.left_child_index })[bvh.nodes_used + 1]? =
            some bvh.nodes[bvh.nodes_used + 1] := by
          rw [List.getElem?_set_ne (by omega)]
          exact hR0
        have e4 : Bvh.modifyNode
            { nodes := bvh.nodes.set bvh.nodes_used { bvh.nodes[bvh.nodes_used] with left_child_index := n.left_child_index, triangle_count := p - n.left_child_index }, triangle_indices := ti1, nodes_used := bvh.nodes_used + 2 }
            (bvh.nodes_used + 1)
            (fun nn => { nn with left_child_index := p, triangle_count := n.triangle_count - (p - n.left_child_index) }) =
            some { nodes := (bvh.nodes.set bvh.nodes_used { bvh.nodes[bvh.nodes_used] with left_child_index := n.left_child_index, triangle_count := p - n.left_child_index }).set (bvh.nodes_used + 1) { bvh.nodes[bvh.nodes_used + 1] with left_child_index := p, triangle_count := n.triangle_count - (p - n.left_child_index) }, triangle_indices := ti1, nodes_used := bvh.nodes_used + 2 } := by
          simp [Bvh.modifyNode, hR1]
        have hnd1 : ((bvh.nodes.set bvh.nodes_used { bvh.nodes[bvh.nodes_used] with left_child_index := n.left_child_index, triangle_count := p - n.left_child_index }).set (bvh.nodes_used + 1) { bvh.nodes[bvh.nodes_used + 1] with left_child_index := p, triangle_count := n.triangle_count - (p - n.left_child_index) })[nd]? =
            some n := by
          rw [List.getElem?_set_ne (by omega), List.getElem?_set_ne (by omega)]
          exact hn
        have e5 : Bvh.modifyNode
            { nodes := (bvh.nodes.set bvh.nodes_used { bvh.nodes[bvh.nodes_used] with left_child_index := n.left_child_index, triangle_count := p - n.left_child_index }).set (bvh.nodes_used + 1) { bvh.nodes[bvh.nodes_used + 1] with left_child_index := p, triangle_count := n.triangle_count - (p - n.left_child_index) }, triangle_indices := ti1, nodes_used := bvh.nodes_used + 2 }
            nd
            (fun nn => { nn with left_child_index := bvh.nodes_used, triangle_count := 0 }) =
            some { nodes := ((bvh.nodes.set bvh.nodes_used { bvh.nodes[bvh.nodes_used] with left_child_index := n.left_child_index, triangle_count := p - n.left_child_index }).set (bvh.nodes_used + 1) { bvh.nodes[bvh.nodes_used + 1] with left_child_index := p, triangle_count := n.triangle_count - (p - n.left_child_index) }).set nd { n with left_child_index := bvh.nodes_used, triangle_count := 0 }, triangle_indices := ti1, nodes_used := bvh.nodes_used + 2 } := by
          simp [Bvh.modifyNode, hnd1]
        have hlen5 : (((bvh.nodes.set bvh.nodes_used { bvh.nodes[bvh.nodes_used] with left_child_index := n.left_child_index, triangle_count := p - n.left_child_index }).set (bvh.nodes_used + 1) { bvh.nodes[bvh.nodes_used + 1] with left_child_index := p, triangle_count := n.triangle_count - (p - n.left_child_index) }).set nd { n with left_child_index := bvh.nodes_used, triangle_count := 0 }).length = bvh.nodes.length := by
          simp
        have hn6get : (((bvh.nodes.set bvh.nodes_used { bvh.nodes[bvh.nodes_used] with left_child_index := n.left_child_index, triangle_count := p - n.left_child_index }).set (bvh.nodes_used + 1) { bvh.nodes[bvh.nodes_used + 1] with left_child_index := p, triangle_count := n.triangle_count - (p - n.left_child_index) }).set nd { n with left_child_index := bvh.nodes_used, triangle_count := 0 })[bvh.nodes_used]? =
            some { bvh.nodes[bvh.nodes_used] with left_child_index := n.left_child_index, triangle_count := p - n.left_child_index } := by
          rw [List.getElem?_set_ne (by omega), List.getElem?_set_ne (by omega),
            List.getElem?_set_self (by omega)]
        obtain ⟨n6, e6, hn6l, hn6c, hbc6⟩ := @update_bounds_spec
          { nodes := ((bvh.nodes.set bvh.nodes_used { bvh.nodes[bvh.nodes_used] with left_child_index := n.left_child_index, triangle_count := p - n.left_child_index }).set (bvh.nodes_used + 1) { bvh.nodes[bvh.nodes_used + 1] with left_child_index := p, triangle_count := n.triangle_count - (p - n.left_child_index) }).set nd { n with left_child_index := bvh.nodes_used, triangle_count := 0 }, triangle_indices := ti1, nodes_used := bvh.nodes_used + 2 }
          bvh.nodes_used triangles _ hn6get
          (by show n.left_child_index + (p - n.left_child_index) ≤ ti1.length
              rw [hlen1]; omega)
          hmem1
        have hl6 : n6.left_child_index = n.left_child_index := hn6l
        have hc6 : n6.triangle_count = p - n.left_child_index := hn6c
        have hn7get : ((((bvh.nodes.set bvh.nodes_used { bvh.nodes[bvh.nodes_used] with left_child_index := n.left_child_index, triangle_count := p - n.left_child_index }).set (bvh.nodes_used + 1) { bvh.nodes[bvh.nodes_used + 1] with left_child_index := p, triangle_count := n.triangle_count - (p - n.left_child_index) }).set nd { n with left_child_index := bvh.nodes_used, triangle_count := 0 }).set bvh.nodes_used n6)[bvh.nodes_used + 1]? =
            some { bvh.nodes[bvh.nodes_used + 1] with left_child_index := p, triangle_count := n.triangle_count - (p - n.left_child_index) } := by
          rw [List.getElem?_set_ne (by omega), List.getElem?_set_ne (by omega),
            List.getElem?_set_self (by simp; omega)]
        obtain ⟨n7, e7, hn7l, hn7c, hbc7⟩ := @update_bounds_spec
          { nodes := (((bvh.nodes.set bvh.nodes_used { bvh.nodes[bvh.nodes_used] with left_child_index := n.left_child_index, triangle_count := p - n.left_child_index }).set (bvh.nodes_used + 1) { bvh.nodes[bvh.nodes_used + 1] with left_child_index := p, triangle_count := n.triangle_count - (p - n.left_child_index) }).set nd { n with left_child_index := bvh.nodes_used, triangle_count := 0 }).set bvh.nodes_used n6, triangle_indices := ti1, nodes_used := bvh.nodes_used + 2 }
          (bvh.nodes_used + 1) triangles _ hn7get
          (by show p + (n.triangle_count - (p - n.left_child_index)) ≤ ti1.length
              rw [hlen1]; omega)
          hmem1
        have hl7 : n7.left_child_index = p := hn7l
        have hc7 : n7.triangle_count = n.triangle_count - (p - n.left_child_index) := hn7c
        have hbc6' : boundsContain triangles ti1 n6 n.left_child_index
            (p - n.left_child_index) := hbc6
        have hbc7' : boundsContain triangles ti1 n7 p
            (n.triangle_count - (p - n.left_child_index)) := hbc7
        have hn6get2 : (((((bvh.nodes.set bvh.nodes_used { bvh.nodes[bvh.nodes_used] with left_child_index := n.left_child_index, triangle_count := p - n.left_child_index }).set (bvh.nodes_used + 1) { bvh.nodes[bvh.nodes_used + 1] with left_child_index := p, triangle_count := n.triangle_count - (p - n.left_child_index) }).set nd { n with left_child_index := bvh.nodes_used, triangle_count := 0 }).set bvh.nodes_used n6).set (bvh.nodes_used + 1) n7)[bvh.nodes_used]? = some n6 := by
          rw [List.getElem?_set_ne (by omega), List.getElem?_set_self (by simp; omega)]
        obtain ⟨B8, e8, hlen8n, hlen8t, hperm8, hge8, hle8, hframe8, htiframe8, hsub8⟩ :=
          ih { nodes := ((((bvh.nodes.set bvh.nodes_used { bvh.nodes[bvh.nodes_used] with left_child_index := n.left_child_index, triangle_count := p - n.left_child_index }).set (bvh.nodes_used + 1) { bvh.nodes[bvh.nodes_used + 1] with left_child_index := p, triangle_count := n.triangle_count - (p - n.left_child_index) }).set nd { n with left_child_index := bvh.nodes_used, triangle_count := 0 }).set bvh.nodes_used n6).set (bvh.nodes_used + 1) n7, triangle_indices := ti1, nodes_used := bvh.nodes_used + 2 }
            bvh.nodes_used n6 hn6get2
            (by show bvh.nodes_used < bvh.nodes_used + 2; omega)
            (by show bvh.nodes_used + 2 ≤ _; simp; omega)
            (by rw [hc6]; omega)
            (by rw [hl6, hc6]; show n.left_child_index + (p - n.left_child_index) ≤ ti1.length
                rw [hlen1]; omega)
            hmem1
            (by rw [hc6]; show bvh.nodes_used + 2 + 2 * (p - n.left_child_index - 1) ≤ _
                simp; omega)
            (by rw [hl6, hc6]; exact hbc6')
            (by rw [hc6]; omega)
        have hge8' : bvh.nodes_used + 2 ≤ B8.nodes_used := hge8
        have hle8' : B8.nodes_used ≤ bvh.nodes_used + 2 + 2 * (n6.triangle_count - 1) := hle8
        rw [hc6] at hle8'
        have hlen8n' : B8.nodes.length = bvh.nodes.length := by
          rw [hlen8n]; simp
        have hlen8t' : B8.triangle_indices.length = ti1.length := hlen8t
        have hperm8' : B8.triangle_indices.Perm ti1 := hperm8
        have hn7get2 : B8.nodes[bvh.nodes_used + 1]? = some n7 := by
          rw [hframe8 (bvh.nodes_used + 1) (by omega)
            (Or.inl (by show bvh.nodes_used + 1 < bvh.nodes_used + 2; omega))]
          rw [List.getElem?_set_self (by simp; omega)]
        have htiframe8' : ∀ m, m < n.left_child_index ∨
            n.left_child_index + (p - n.left_child_index) ≤ m →
            B8.triangle_indices[m]? = ti1[m]? := by
          intro m hm
          exact htiframe8 m (by rw [hl6, hc6]; exact hm)
        have hbc7'' : boundsContain triangles B8.triangle_indices n7 p
            (n.triangle_count - (p - n.left_child_index)) := by
          have hsl : slice B8.triangle_indices p (n.triangle_count - (p - n.left_child_index)) =
              slice ti1 p (n.triangle_count - (p - n.left_child_index)) :=
            slice_eq_of_agree fun m hm1 hm2 => htiframe8' m (Or.inr (by omega))
          rw [show (boundsContain triangles B8.triangle_indices n7 p
              (n.triangle_count - (p - n.left_child_index))) =
            (boundsContain triangles ti1 n7 p
              (n.triangle_count - (p - n.left_child_index))) from by
              unfold boundsContain; rw [hsl]]
          exact hbc7'
        obtain ⟨B9, e9, hlen9n, hlen9t, hperm9, hge9, hle9, hframe9, htiframe9, hsub9⟩ :=
          ih B8 (bvh.nodes_used + 1) n7 hn7get2
            (by omega)
            (by rw [hlen8n']; omega)
            (by rw [hc7]; omega)
            (by rw [hl7, hc7, hlen8t', hlen1]; omega)
            (fun q hq => hmem1 q (hperm8'.mem_iff.mp hq))
            (by rw [hc7, hlen8n']; omega)
            (by rw [hl7, hc7]; exact hbc7'')
            (by rw [hc7]; omega)
        have hge9' : B8.nodes_used ≤ B9.nodes_used := hge9
        have hle9' : B9.nodes_used ≤ B8.nodes_used + 2 * (n7.triangle_count - 1) := hle9
        rw [hc7] at hle9'
        have htiframe9' : ∀ m, m < p ∨
            p + (n.triangle_count - (p - n.left_child_index)) ≤ m →
            B9.triangle_indices[m]? = B8.triangle_indices[m]? := by
          intro m hm
          exact htiframe9 m (by rw [hl7, hc7]; exact hm)
        refine ⟨B9, ?_, ?_, ?_, ?_, ?_, ?_, ?_, ?_, ?_⟩
        · simp only [Bvh.subdivide, hn, hrun]
          rw [if_neg hbig, if_neg hdeg]
          simp only [e3, e4, e5, e6, e7, e8, e9]
        · rw [hlen9n, hlen8n']
        · rw [hlen9t, hlen8t', hlen1]
        · exact hperm9.trans (hperm8'.trans hperm1)
        · omega
        · omega
        · intro m hmnd hmrange
          have hstep9 : B9.nodes[m]? = B8.nodes[m]? := by
            apply hframe9 m (by omega)
            rcases hmrange with h | h
            · exact Or.inl (by omega)
            · exact Or.inr (by omega)
          have hstep8 : B8.nodes[m]? = (((((bvh.nodes.set bvh.nodes_used { bvh.nodes[bvh.nodes_used] with left_child_index := n.left_child_index, triangle_count := p - n.left_child_index }).set (bvh.nodes_used + 1) { bvh.nodes[bvh.nodes_used + 1] with left_child_index := p, triangle_count := n.triangle_count - (p - n.left_child_index) }).set nd { n with left_child_index := bvh.nodes_used, triangle_count := 0 }).set bvh.nodes_used n6).set (bvh.nodes_used + 1) n7)[m]? := by
            apply hframe8 m (by omega)
            rcases hmrange with h | h
            · exact Or.inl (by show m < bvh.nodes_used + 2; omega)
            · exact Or.inr (by omega)
          rw [hstep9, hstep8, List.getElem?_set_ne (by omega),
            List.getElem?_set_ne (by omega), List.getElem?_set_ne (by omega),
            List.getElem?_set_ne (by omega), List.getElem?_set_ne (by omega)]
        · intro m hm
          rw [htiframe9' m (by omega), htiframe8' m (by omega), houtc m hm]
        · have hstabL : SubtreeIn triangles B9 bvh.nodes_used
              (bvh.nodes_used + 2) B8.nodes_used n.left_child_index
              (p - n.left_child_index) := by
            rw [hl6, hc6] at hsub8
            refine hsub8.stable ?_ ?_ ?_
            · apply hframe9 bvh.nodes_used (by omega)
              exact Or.inl (by omega)
            · intro m h1 h2
              have h1' : bvh.nodes_used + 2 ≤ m := h1
              exact hframe9 m (by omega) (Or.inl h2)
            · intro m h1 h2
              exact htiframe9' m (Or.inl (by omega))
          have hstabR : SubtreeIn triangles B9 (bvh.nodes_used + 1)
              B8.nodes_used B9.nodes_used p
              (n.triangle_count - (p - n.left_child_index)) := by
            rw [hl7, hc7] at hsub9
            exact hsub9
          have hnP9 : B9.nodes[nd]? =
              some { n with left_child_index := bvh.nodes_used, triangle_count := 0 } := by
            rw [hframe9 nd (by omega) (Or.inl (by omega)),
              hframe8 nd (by omega) (Or.inl (by show nd < bvh.nodes_used + 2; omega)),
              List.getElem?_set_ne (by omega), List.getElem?_set_ne (by omega),
              List.getElem?_set_self (by simp; omega)]
          have hscomb : (slice B9.triangle_indices n.left_child_index
              n.triangle_count).Perm
              (slice bvh.triangle_indices n.left_child_index n.triangle_count) := by
            have s1 : (slice ti1 n.left_child_index n.triangle_count).Perm
                (slice bvh.triangle_indices n.left_child_index n.triangle_count) :=
              slice_perm_of_perm hperm1 houtc
            have s2 : (slice B8.triangle_indices n.left_child_index
                n.triangle_count).Perm (slice ti1 n.left_child_index n.triangle_count) :=
              slice_perm_of_perm hperm8' fun m hm => htiframe8' m (by omega)
            have s3 : (slice B9.triangle_indices n.left_child_index
                n.triangle_count).Perm
                (slice B8.triangle_indices n.left_child_index n.triangle_count) :=
              slice_perm_of_perm hperm9 fun m hm => htiframe9' m (by omega)
            exact s3.trans (s2.trans s1)
          refine SubtreeIn.internal nd bvh.nodes_used B9.nodes_used
            n.left_child_index n.triangle_count (p - n.left_child_index)
            { n with left_child_index := bvh.nodes_used, triangle_count := 0 }
            hnP9 rfl (by omega) (by omega) le_rfl
            (by show bvh.nodes_used + 1 < B9.nodes_used; omega) ?_ ?_ ?_
          · exact hstabL.mono (by omega) (hge9')
          · rw [show n.left_child_index + (p - n.left_child_index) = p from by omega]
            exact hstabR.mono (by omega) le_rfl
          · exact boundsContain_of_perm hscomb hbc

/-! ## The from_triangles specification -/

theorem from_triangles_spec (triangles : List Triangle) (hne : triangles ≠ []) :
    ∃ bvh, Bvh.from_triangles triangles = some bvh ∧
      bvh.nodes.length = triangles.length * 2 - 1 ∧
      bvh.triangle_indices.length = triangles.length ∧
      bvh.triangle_indices.Perm (List.range triangles.length) ∧
      1 ≤ bvh.nodes_used ∧
      bvh.nodes_used ≤ triangles.length * 2 - 1 ∧
      SubtreeIn triangles bvh 0 1 bvh.nodes_used 0 triangles.length := by
  have hN : 0 < triangles.length := List.length_pos.mpr hne
  have hget0 : (List.replicate (triangles.length * 2 - 1) Node.default)[0]? =
      some Node.default := by
    rw [List.getElem?_replicate, if_pos (by omega)]
  have e1 : Bvh.modifyNode
      { nodes := List.replicate (triangles.length * 2 - 1) Node.default, triangle_indices := List.range triangles.length, nodes_used := 0 }
      0
      (fun nn => { nn with left_child_index := 0, triangle_count := triangles.length }) =
      some { nodes := (List.replicate (triangles.length * 2 - 1) Node.default).set 0 { Node.default with left_child_index := 0, triangle_count := triangles.length }, triangle_indices := List.range triangles.length, nodes_used := 0 } := by
    simp [Bvh.modifyNode, hget0]
  have hget1 : ((List.replicate (triangles.length * 2 - 1) Node.default).set 0 { Node.default with left_child_index := 0, triangle_count := triangles.length })[0]? =
      some { Node.default with left_child_index := 0, triangle_count := triangles.length } := by
    rw [List.getElem?_set_self (by simp; omega)]
  obtain ⟨n3, e2, h3l, h3c, hbc3⟩ := @update_bounds_spec
    { nodes := (List.replicate (triangles.length * 2 - 1) Node.default).set 0 { Node.default with left_child_index := 0, triangle_count := triangles.length }, triangle_indices := List.range triangles.length, nodes_used := 1 }
    0 triangles _ hget1
    (by show 0 + triangles.length ≤ (List.range triangles.length).length; simp)
    (fun q hq => List.mem_range.mp hq)
  have hl3 : n3.left_child_index = 0 := h3l
  have hc3 : n3.triangle_count = triangles.length := h3c
  have hget2 : (((List.replicate (triangles.length * 2 - 1) Node.default).set 0 { Node.default with left_child_index := 0, triangle_count := triangles.length }).set 0 n3)[0]? = some n3 := by
    rw [List.getElem?_set_self (by simp; omega)]
  obtain ⟨bvh', erun, hlenn, hlent, hperm, hge, hle, hframe, htif, hsub⟩ :=
    subdivide_spec triangles (triangles.length + 1)
      { nodes := ((List.replicate (triangles.length * 2 - 1) Node.default).set 0 { Node.default with left_child_index := 0, triangle_count := triangles.length }).set 0 n3, triangle_indices := List.range triangles.length, nodes_used := 1 }
      0 n3 hget2
      (by show (0 : ℕ) < 1; omega)
      (by show (1 : ℕ) ≤ _; simp; omega)
      (by rw [hc3]; omega)
      (by rw [hl3, hc3]; show 0 + triangles.length ≤ (List.range triangles.length).length; simp)
      (fun q hq => List.mem_range.mp hq)
      (by rw [hc3]; show 1 + 2 * (triangles.length - 1) ≤ _; simp; omega)
      (by rw [hl3, hc3]; exact hbc3)
      (by rw [hc3]; omega)
  have hle' : bvh'.nodes_used ≤ 1 + 2 * (n3.triangle_count - 1) := hle
  rw [hc3] at hle'
  have hge' : 1 ≤ bvh'.nodes_used := hge
  refine ⟨bvh', ?_, ?_, ?_, hperm, hge', by omega, ?_⟩
  · simp only [Bvh.from_triangles, e1, e2, erun]
  · rw [hlenn]; simp
  · rw [hlent]; simp
  · rw [hl3, hc3] at hsub
    exact hsub

/-! ## Claims C1, C2, C4 on the builder -/

/-- C1: after `Bvh::from_triangles` returns on a non-empty triangle list, every
node of the built BVH — the root and every node reached through an internal
node's `left_child_index` and `left_child_index + 1` links — has an AABB that
contains, componentwise, all three vertex positions of every triangle
referenced through the leaf ranges of its subtree. -/
theorem C1_bvh_containment (triangles : List Triangle) (hne : triangles ≠ []) :
    ∃ bvh, Bvh.from_triangles triangles = some bvh ∧
      ∀ nd ∈ reachableNodes bvh bvh.nodes.length 0,
        ∀ nn, bvh.nodes[nd]? = some nn →
        ∀ pr ∈ subtreeLeafRanges bvh bvh.nodes.length nd,
        ∀ q ∈ slice bvh.triangle_indices pr.1 pr.2,
        ∀ t, triangles[q]? = some t → nodeContains nn t := by
  obtain ⟨bvh, hrun, hlenn, hlent, hperm, hge, hle, hsub⟩ :=
    from_triangles_spec triangles hne
  have hN : 0 < triangles.length := List.length_pos.mpr hne
  refine ⟨bvh, hrun, ?_⟩
  intro nd hnd nn hnn pr hpr q hq t ht
  obtain ⟨f', c', hc'le, hsubnd⟩ :=
    hsub.reachable_spec bvh.nodes.length (by omega) nd hnd
  obtain ⟨nn', hnn', hbcnd⟩ := hsubnd.boundsContain_of_root
  have hnn2 : nn' = nn := by rw [hnn] at hnn'; exact (Option.some.injEq _ _).mp hnn'.symm
  subst hnn2
  have hcov := hsubnd.leafRanges_cover bvh.nodes.length (by omega)
  obtain ⟨m, hm1, hm2, hmq⟩ := exists_getElem?_of_mem_slice hq
  have hmmem : m ∈ List.range' f' c' := by
    rw [← hcov]
    exact List.mem_flatMap.mpr ⟨pr, hpr, List.mem_range'_1.mpr ⟨hm1, hm2⟩⟩
  have hmrange : f' ≤ m ∧ m < f' + c' := List.mem_range'_1.mp hmmem
  exact hbcnd q (mem_slice_of_getElem? hmrange.1 hmrange.2 hmq) t ht

set_option maxRecDepth 100000 in
unseal Rat.add Rat.sub Rat.mul Rat.inv in
/-- Witness for `C1_bvh_containment` at a concrete single-triangle list. -/
theorem C1_witness :
    [xTriangle 0 1] ≠ ([] : List Triangle) ∧
      ∃ bvh, Bvh.from_triangles [xTriangle 0 1] = some bvh ∧
        ∀ nd ∈ reachableNodes bvh bvh.nodes.length 0,
          ∀ nn, bvh.nodes[nd]? = some nn →
          ∀ pr ∈ subtreeLeafRanges bvh bvh.nodes.length nd,
          ∀ q ∈ slice bvh.triangle_indices pr.1 pr.2,
          ∀ t, [xTriangle 0 1][q]? = some t → nodeContains nn t :=
  ⟨by decide, C1_bvh_containment [xTriangle 0 1] (by decide)⟩

/-- C2: for every non-empty triangle list of length `N`, the `triangle_indices`
array returned by `Bvh::from_triangles` is a permutation of `{0, …, N−1}`
(a bijection on that set), and the leaf ranges of the built tree, read in
order, concatenate to exactly `[0, …, N−1]` — pairwise disjoint, no gaps, no
duplicates. -/
theorem C2_permutation_and_coverage (triangles : List Triangle)
    (hne : triangles ≠ []) :
    ∃ bvh, Bvh.from_triangles triangles = some bvh ∧
      bvh.triangle_indices.Perm (List.range triangles.length) ∧
      (subtreeLeafRanges bvh bvh.nodes.length 0).flatMap
        (fun pr => List.range' pr.1 pr.2) = List.range triangles.length := by
  obtain ⟨bvh, hrun, hlenn, hlent, hperm, hge, hle, hsub⟩ :=
    from_triangles_spec triangles hne
  have hN : 0 < triangles.length := List.length_pos.mpr hne
  refine ⟨bvh, hrun, hperm, ?_⟩
  rw [hsub.leafRanges_cover bvh.nodes.length (by omega), List.range_eq_range']

set_option maxRecDepth 100000 in
unseal Rat.add Rat.sub Rat.mul Rat.inv in
/-- Witness for `C2_permutation_and_coverage` at a concrete two-triangle list. -/
theorem C2_witness :
    [xTriangle 0 1, xTriangle 2 3] ≠ ([] : List Triangle) ∧
      ∃ bvh, Bvh.from_triangles [xTriangle 0 1, xTriangle 2 3] = some bvh ∧
        bvh.triangle_indices.Perm (List.range 2) ∧
        (subtreeLeafRanges bvh bvh.nodes.length 0).flatMap
          (fun pr => List.range' pr.1 pr.2) = List.range 2 :=
  ⟨by decide, C2_permutation_and_coverage [xTriangle 0 1, xTriangle 2 3] (by decide)⟩

/-- C4: for every non-empty triangle list of `N` triangles,
`Bvh::from_triangles` terminates returning a BVH (in this embedding: no
checked access returns `none`, so none of the builder's out-of-range
assertions can fire), the pre-allocated node array has exactly `2·N − 1`
slots, and at most `2·N − 1` of them are ever used. -/
theorem C4_node_budget (triangles : List Triangle) (hne : triangles ≠ []) :
    ∃ bvh, Bvh.from_triangles triangles = some bvh ∧
      bvh.nodes_used ≤ 2 * triangles.length - 1 ∧
      bvh.nodes.length = 2 * triangles.length - 1 := by
  obtain ⟨bvh, hrun, hlenn, hlent, hperm, hge, hle, hsub⟩ :=
    from_triangles_spec triangles hne
  exact ⟨bvh, hrun, by omega, by omega⟩

set_option maxRecDepth 100000 in
unseal Rat.add Rat.sub Rat.mul Rat.inv in
/-- Witness for `C4_node_budget` at a concrete single-triangle list. -/
theorem C4_witness :
    [xTriangle 0 1] ≠ ([] : List Triangle) ∧
      ∃ bvh, Bvh.from_triangles [xTriangle 0 1] = some bvh ∧
        bvh.nodes_used ≤ 2 * 1 - 1 ∧ bvh.nodes.length = 2 * 1 - 1 :=
  ⟨by decide, C4_node_budget [xTriangle 0 1] (by decide)⟩

/-- C3 (amended): in the two-pointer partition loop of `Bvh::subdivide`, every
triangle that ends up strictly left of the final partition index `p` (the left
child's range) has at least one vertex strictly below the split position on
the chosen axis, and every triangle strictly right of `p` has none; the
triangle at the meeting position `p` itself is never tested by the
`while i < j` loop and is assigned to the right child's range regardless of
its vertices. -/
theorem C3_partition_rule (triangles : List Triangle) (axis : Fin 3) (pos : ℚ)
    (fuel : ℕ) (ti ti' : List ℕ) (i j p : ℕ)
    (hij : i ≤ j) (hjlen : j < ti.length)
    (hmem : ∀ q ∈ ti, q < triangles.length) (hfuel : j - i < fuel)
    (hrun : partitionLoop triangles axis pos fuel ti i j = some (ti', p)) :
    (∀ m, i ≤ m → m < p → ∀ q, ti'[m]? = some q →
      belowIdx triangles axis pos q = true) ∧
    (∀ m, p < m → m ≤ j → ∀ q, ti'[m]? = some q →
      belowIdx triangles axis pos q = false) := by
  obtain ⟨ti'', p'', hrun'', hip, hpj, hlen, hperm, hout, hleft, hright⟩ :=
    partitionLoop_spec triangles axis pos fuel ti i j hij hjlen hmem hfuel
  rw [hrun] at hrun''
  have h1 : ti' = ti'' := by cases hrun''; rfl
  have h2 : p = p'' := by cases hrun''; rfl
  subst h1
  subst h2
  exact ⟨hleft, hright⟩

set_option maxRecDepth 100000 in
unseal Rat.add Rat.sub Rat.mul Rat.inv in
/-- Witness for `C3_partition_rule` on the concrete partition performed at the
root while building `cexTriangles`. -/
theorem C3_witness :
    partitionLoop cexTriangles 0 2 3 [0, 1, 2] 0 2 = some ([0, 1, 2], 2) ∧
      ((∀ m, 0 ≤ m → m < 2 → ∀ q, ([0, 1, 2] : List ℕ)[m]? = some q →
        belowIdx cexTriangles 0 2 q = true) ∧
      (∀ m, 2 < m → m ≤ 2 → ∀ q, ([0, 1, 2] : List ℕ)[m]? = some q →
        belowIdx cexTriangles 0 2 q = false)) :=
  ⟨by decide, C3_partition_rule cexTriangles 0 2 3 [0, 1, 2] [0, 1, 2] 0 2 2
    (by decide) (by decide) (by decide) (by decide) (by decide)⟩

/-! ## Progressive rendering accumulator (`src/renderer.rs`) -/

/-- `MAX_NUMBER_OF_SAMPLES` of `src/renderer.rs`. -/
def MAX_NUMBER_OF_SAMPLES : ℕ := 256

/-- The accumulator state of `ProgressiveRendering` in `src/renderer.rs`.
The GPU buffer handle and the history-texture array carry no logic and are
external resources, so they are omitted from the state. -/
structure ProgressiveRendering where
  enabled : Bool
  sample_size : ℕ
  sample_size_while_moving : ℕ
  ready_samples : ℕ
  deriving DecidableEq, Repr

/-- `ProgressiveRendering::get_sample_size` of `src/renderer.rs`. -/
def ProgressiveRendering.get_sample_size (p : ProgressiveRendering)
    (is_moving : Bool) : ℕ :=
  if !p.enabled then p.ready_samples
  else if is_moving then p.sample_size_while_moving
  else min p.sample_size p.ready_samples

/-- `ProgressiveRendering::reset_ready_samples` of `src/renderer.rs`. -/
def ProgressiveRendering.reset_ready_samples (p : ProgressiveRendering) :
    ProgressiveRendering :=
  { p with ready_samples := 1 }

/-- `ProgressiveRendering::increment_ready_samples` of `src/renderer.rs`. -/
def ProgressiveRendering.increment_ready_samples (p : ProgressiveRendering) :
    ProgressiveRendering :=
  if !p.enabled then p
  else { p with ready_samples := min (p.ready_samples + 1) p.sample_size }

/-- Modelled from the spec: the target sample count is reconfigured through an
egui slider declared over the range `1..=MAX_NUMBER_OF_SAMPLES` in
`Renderer::render_ui` (`src/renderer.rs`); the clamping of an out-of-range
value into the declared range happens inside the external egui crate, so the
stored value is modelled from the spec sentence "`target` below 1 is clamped
to 1" as the declared range applied to the incoming value. -/
def ProgressiveRendering.set_sample_size (p : ProgressiveRendering) (v : ℕ) :
    ProgressiveRendering :=
  { p with sample_size := max 1 (min v MAX_NUMBER_OF_SAMPLES) }

/-- Modelled from the spec: the while-moving sample count is reconfigured
through an egui slider declared over `1..=MAX_NUMBER_OF_SAMPLES` in
`Renderer::render_ui` (`src/renderer.rs`); clamping as in `set_sample_size`. -/
def ProgressiveRendering.set_sample_size_while_moving (p : ProgressiveRendering)
    (v : ℕ) : ProgressiveRendering :=
  { p with sample_size_while_moving := max 1 (min v MAX_NUMBER_OF_SAMPLES) }

/-- The enabled-checkbox interaction of `Renderer::render_ui`
(`src/renderer.rs`): store the new flag and, when it changed, call
`reset_ready_samples`. -/
def ProgressiveRendering.set_enabled (p : ProgressiveRendering) (b : Bool) :
    ProgressiveRendering :=
  if b ≠ p.enabled then ({ p with enabled := b }).reset_ready_samples
  else { p with enabled := b }

/-- An enabled accumulator with one populated history slot and a configured
while-moving count of two. -/
def movingCex : ProgressiveRendering :=
  { enabled := true, sample_size := 128, sample_size_while_moving := 2
    ready_samples := 1 }

/-- C6 is refuted: in the enabled-and-moving case `get_sample_size` returns the
configured `sample_size_while_moving` verbatim, which can exceed the number of
populated history slots (`ready_samples`); here it returns 2 while only 1 slot
is populated. -/
theorem C6_counterexample :
    movingCex.get_sample_size true = 2 ∧ movingCex.ready_samples = 1 ∧
      ¬ movingCex.get_sample_size true ≤ movingCex.ready_samples := by
  decide

/-- C6 (amended): the value returned by `get_sample_size` never exceeds
`ready_samples` whenever the accumulator is disabled or not moving; in the
enabled-and-moving case the configured `sample_size_while_moving` is returned
verbatim and may exceed `ready_samples`. -/
theorem C6_sample_size_le_ready (p : ProgressiveRendering) (is_moving : Bool)
    (h : p.enabled = false ∨ is_moving = false) :
    p.get_sample_size is_moving ≤ p.ready_samples := by
  unfold ProgressiveRendering.get_sample_size
  rcases h with h | h
  · rw [h]; simp
  · rw [h]
    split
    · exact le_rfl
    · simp [Nat.min_le_right]

/-- Witness for `C6_sample_size_le_ready` at a concrete state. -/
theorem C6_witness :
    (movingCex.enabled = false ∨ false = false) ∧
      movingCex.get_sample_size false ≤ movingCex.ready_samples :=
  ⟨Or.inr rfl, C6_sample_size_le_ready movingCex false (Or.inr rfl)⟩

/-- C7: reconfiguring the accumulator with a target sample count below 1 stores
the clamped value 1. The reconfiguration operations (`set_sample_size`,
`set_sample_size_while_moving`, `set_enabled`) are total functions of the
state — no input makes any of them panic. -/
theorem C7_target_below_one_clamps (p : ProgressiveRendering) (v : ℕ)
    (h : v < 1) : (p.set_sample_size v).sample_size = 1 := by
  have hv : v = 0 := by omega
  subst hv
  simp [ProgressiveRendering.set_sample_size]

/-- Witness for `C7_target_below_one_clamps` at a concrete state and value. -/
theorem C7_witness :
    0 < 1 ∧ (movingCex.set_sample_size 0).sample_size = 1 :=
  ⟨Nat.zero_lt_one, C7_target_below_one_clamps movingCex 0 Nat.zero_lt_one⟩

/-! ## Claim C9: empty input -/

/-- C9: `Bvh::from_triangles` applied to an empty triangle list fails fast
instead of returning a BVH value. In the Rust code the length computation
`triangles.len() * 2 - 1` panics (debug: subtraction overflow; release: the
wrapped value makes the node allocation panic); in this embedding the truncated
subtraction makes the node list empty, the root access fails, and the build
returns `none` — the model of that panic. No `Bvh` value is ever produced. -/
theorem C9_empty_input_fails : Bvh.from_triangles [] = none := by
  decide

/-! ## Claim C3: the partition rule -/

/-- The root node of the BVH built from `cexTriangles`. -/
def cexRoot : Node :=
  { min_corner := ⟨0, 0, 0⟩, left_child_index := 1
    max_corner := ⟨4, 0, 0⟩, triangle_count := 0 }

/-- The left child of the root in the BVH built from `cexTriangles`. -/
def cexLeft : Node :=
  { min_corner := ⟨0, 0, 0⟩, left_child_index := 0
    max_corner := ⟨4, 0, 0⟩, triangle_count := 2 }

/-- The right child of the root in the BVH built from `cexTriangles`. -/
def cexRight : Node :=
  { min_corner := ⟨0, 0, 0⟩, left_child_index := 2
    max_corner := ⟨2, 0, 0⟩, triangle_count := 1 }

set_option maxRecDepth 100000 in
unseal Rat.add Rat.sub Rat.mul Rat.inv in
/-- C3 is refuted: building `cexTriangles` subdivides the root with a
non-degenerate partition (left child holds positions `[0, 2)`, right child
position `2`, both non-empty), the final permutation is `[0, 1, 2]`, so
triangle 2 ends up in the right child's range — yet triangle 2 has a vertex
strictly below the split position on the chosen axis (its vertices sit at 0 and
2 on the X axis, the split is at 2). The `while i < j` loop never tests the
element at which the two pointers meet, and that element always goes right. -/
theorem C3_counterexample :
    (Bvh.from_triangles cexTriangles).map
        (fun bvh => (bvh.nodes[0]?, bvh.nodes[1]?, bvh.nodes[2]?,
          bvh.triangle_indices)) =
      some (some cexRoot, some cexLeft, some cexRight, [0, 1, 2]) ∧
    anyVertexBelow (xTriangle 0 2) (chosenAxis cexRoot) (splitPos cexRoot) = true := by
  decide

/-! ## Scene, spheres and rays (`src/scene/mod.rs`, `src/scene/sphere.rs`,
`src/scene/camera.rs`).  The sphere-intersection math takes a square root, so
this part of the embedding lives over `ℝ` and is `noncomputable`; the
structural logic (list searches, field updates) still reduces definitionally
on concrete inputs. -/

/-- Three-component real vector, modelling `Vector3<f32>` where square roots
are needed. -/
structure RVec3 where
  x : ℝ
  y : ℝ
  z : ℝ

noncomputable def RVec3.sub (u v : RVec3) : RVec3 :=
  ⟨u.x - v.x, u.y - v.y, u.z - v.z⟩

noncomputable def RVec3.add (u v : RVec3) : RVec3 :=
  ⟨u.x + v.x, u.y + v.y, u.z + v.z⟩

noncomputable def RVec3.smul (v : RVec3) (t : ℝ) : RVec3 :=
  ⟨v.x * t, v.y * t, v.z * t⟩

/-- cgmath's `dot`. -/
noncomputable def RVec3.dot (u v : RVec3) : ℝ :=
  u.x * v.x + u.y * v.y + u.z * v.z

/-- cgmath's `magnitude2` (squared length). -/
noncomputable def RVec3.magnitude2 (v : RVec3) : ℝ :=
  v.dot v

/-- The `Ray` struct of `src/scene/camera.rs`. -/
structure Ray where
  origin : RVec3
  direction : RVec3

/-- `Ray::at`: `self.origin + self.direction * t`. -/
noncomputable def Ray.at (r : Ray) (t : ℝ) : RVec3 :=
  r.origin.add (r.direction.smul t)

/-- The `Sphere` struct of `src/scene/sphere.rs` (`Uuid` modelled as `ℕ`). -/
structure Sphere where
  uuid : ℕ
  label : Option String
  center : RVec3
  radius : ℝ
  albedo : RVec3
  material : Material

/-- The `HitRecord` struct of `src/scene/sphere.rs` (the `&Sphere` reference
is modelled as the sphere value). -/
structure HitRecord where
  point : RVec3
  t : ℝ
  sphere : Sphere

open Classical in
/-- `Sphere::hit` of `src/scene/sphere.rs`: solve the ray-sphere quadratic,
require a strictly positive discriminant, and return the first of the two
roots (in increasing order) that lies strictly inside `(t_min, t_max)`. -/
noncomputable def Sphere.hit (s : Sphere) (ray : Ray) (t_min t_max : ℝ) :
    Option HitRecord :=
  let oc := ray.origin.sub s.center
  let a := ray.direction.magnitude2
  let half_b := oc.dot ray.direction
  let c := oc.magnitude2 - s.radius * s.radius
  let discriminant := half_b * half_b - a * c
  if discriminant > 0 then
    let root := Real.sqrt discriminant
    let t := (-half_b - root) / a
    if t < t_max ∧ t > t_min then
      some { point := ray.at t, t := t, sphere := s }
    else
      let t := (-half_b + root) / a
      if t < t_max ∧ t > t_min then
        some { point := ray.at t, t := t, sphere := s }
      else none
  else none

/-- The `Camera` struct of `src/scene/camera.rs` (the wall-clock
`last_move_time: Instant` field carries no arithmetic content and is outside
a shallow embedding; it is omitted, and `Scene::update` never touches it). -/
structure Camera where
  origin : RVec3
  forward : RVec3
  right : RVec3
  up : RVec3
  focal_length : ℝ
  vfov : ℝ

/-- The `Scene` struct of `src/scene/mod.rs`. -/
structure Scene where
  camera : Camera
  spheres : List Sphere
  selected_sphere : Option ℕ
  triangles : List Triangle
  bvh : Bvh

/-- `Scene::hit_closest_sphere` of `src/scene/mod.rs`: linear scan over all
spheres, shrinking `closest_so_far` on every hit. -/
noncomputable def Scene.hit_closest_sphere (scene : Scene) (ray : Ray)
    (t_min t_max : ℝ) : Option HitRecord :=
  (scene.spheres.foldl
    (fun acc sphere =>
      match Sphere.hit sphere ray t_min acc.1 with
      | some hit => (hit.t, some hit)
      | none => acc)
    ((t_max, none) : ℝ × Option HitRecord)).2

/-- The reserved gizmo label of `src/scene/mod.rs`. -/
def gizmoLabel : String := "selected_sphere_gizmo"

/-- `Scene::update` of `src/scene/mod.rs`.  The Rust method walks a single
`iter_mut()`: the first `find` locates the selected sphere, the second `find`
continues from the element after it, so the gizmo is searched only in the
tail after the selected sphere.  Mutation happens only after both finds
succeed; a `None` return leaves the scene untouched (modelled by returning
`none` with no new scene). -/
noncomputable def Scene.update (scene : Scene) : Option Scene :=
  match scene.selected_sphere with
  | none => none
  | some selected =>
    match scene.spheres.findIdx? (fun s => s.uuid == selected) with
    | none => none
    | some si =>
      match (scene.spheres.drop (si + 1)).findIdx?
          (fun s => s.label == some gizmoLabel) with
      | none => none
      | some gj =>
        match scene.spheres[si]?, scene.spheres[si + 1 + gj]? with
        | some sphere, some gizmo =>
          some { scene with spheres := scene.spheres.set (si + 1 + gj) { gizmo with center := sphere.center, radius := sphere.radius + 0.01 } }
        | _, _ => none

/-- Running `update` as the caller observes it: the mutated scene on `Some`,
the untouched scene on `None`. -/
noncomputable def Scene.updateRun (scene : Scene) : Scene :=
  (Scene.update scene).getD scene

/-! ## findIdx? facts -/

theorem findIdx?_some_spec {α : Type _} {p : α → Bool} :
    ∀ {l : List α} {i j : ℕ}, List.findIdx? p l i = some j →
      i ≤ j ∧ j - i < l.length ∧ ∃ a, l[j - i]? = some a ∧ p a = true := by
  intro l
  induction l with
  | nil => intro i j h; simp [List.findIdx?] at h
  | cons x xs ih =>
    intro i j h
    rw [List.findIdx?_cons] at h
    by_cases hp : p x = true
    · rw [if_pos hp] at h
      cases h
      exact ⟨le_rfl, by simp, x, by simp, hp⟩
    · rw [if_neg hp] at h
      obtain ⟨h1, h2, a, ha, hpa⟩ := ih h
      refine ⟨by omega, by simp; omega, a, ?_, hpa⟩
      rw [show j - i = (j - (i + 1)) + 1 by omega]
      simpa using ha

/-! ## Claim C5: closest-sphere picking -/

/-- The ray meets the sphere's surface at parameter `t`:
`|ray.at t − center|² = radius²`. -/
def Sphere.meetsAt (s : Sphere) (ray : Ray) (t : ℝ) : Prop :=
  ((ray.at t).sub s.center).magnitude2 = s.radius * s.radius

/-- The discriminant of the ray-sphere quadratic exactly as `Sphere::hit`
computes it (`half_b² − a·c`). -/
noncomputable def hitDiscriminant (s : Sphere) (ray : Ray) : ℝ :=
  let oc := ray.origin.sub s.center
  let a := ray.direction.magnitude2
  let half_b := oc.dot ray.direction
  let c := oc.magnitude2 - s.radius * s.radius
  half_b * half_b - a * c

/-- The smaller quadratic root, as `Sphere::hit` computes it first. -/
noncomputable def hitRoot1 (s : Sphere) (ray : Ray) : ℝ :=
  (-((ray.origin.sub s.center).dot ray.direction) -
    Real.sqrt (hitDiscriminant s ray)) / ray.direction.magnitude2

/-- The larger quadratic root, tried second by `Sphere::hit`. -/
noncomputable def hitRoot2 (s : Sphere) (ray : Ray) : ℝ :=
  (-((ray.origin.sub s.center).dot ray.direction) +
    Real.sqrt (hitDiscriminant s ray)) / ray.direction.magnitude2

/-- A valid hit parameter in the sense of the spec's "smallest valid root in
`(t_min, t_max)`": the ray properly pierces the sphere (strictly positive
discriminant — the code rejects tangential contact), the parameter solves the
ray-sphere equation, and it lies strictly inside the open interval. -/
def Sphere.validHit (s : Sphere) (ray : Ray) (t_min t_max t : ℝ) : Prop :=
  0 < hitDiscriminant s ray ∧ s.meetsAt ray t ∧ t_min < t ∧ t < t_max

open Classical in
/-- `Sphere::hit` written through the named roots (definitional repackaging of
the source code's let-chain). -/
theorem Sphere.hit_eq (s : Sphere) (ray : Ray) (t_min t_max : ℝ) :
    Sphere.hit s ray t_min t_max =
      if 0 < hitDiscriminant s ray then
        if hitRoot1 s ray < t_max ∧ hitRoot1 s ray > t_min then
          some { point := ray.at (hitRoot1 s ray), t := hitRoot1 s ray, sphere := s }
        else if hitRoot2 s ray < t_max ∧ hitRoot2 s ray > t_min then
          some { point := ray.at (hitRoot2 s ray), t := hitRoot2 s ray, sphere := s }
        else none
      else none := rfl

theorem meetsAt_iff_quadratic (s : Sphere) (ray : Ray) (t : ℝ) :
    s.meetsAt ray t ↔
      ray.direction.magnitude2 * (t * t) +
        2 * ((ray.origin.sub s.center).dot ray.direction) * t +
        ((ray.origin.sub s.center).magnitude2 - s.radius * s.radius) = 0 := by
  unfold Sphere.meetsAt Ray.at RVec3.sub RVec3.add RVec3.smul RVec3.magnitude2 RVec3.dot
  constructor
  · intro h
    linear_combination h
  · intro h
    linear_combination h

theorem magnitude2_nonneg (v : RVec3) : 0 ≤ v.magnitude2 := by
  unfold RVec3.magnitude2 RVec3.dot
  exact add_nonneg (add_nonneg (mul_self_nonneg _) (mul_self_nonneg _))
    (mul_self_nonneg _)

theorem disc_pos_imp_dir_pos (s : Sphere) (ray : Ray)
    (hd : 0 < hitDiscriminant s ray) : 0 < ray.direction.magnitude2 := by
  rcases (magnitude2_nonneg ray.direction).lt_or_eq with h | h
  · exact h
  · exfalso
    have h0 : ray.direction.x * ray.direction.x + ray.direction.y * ray.direction.y +
        ray.direction.z * ray.direction.z = 0 := by
      unfold RVec3.magnitude2 RVec3.dot at h
      linarith
    have hx : ray.direction.x = 0 := by nlinarith [sq_nonneg ray.direction.x, sq_nonneg ray.direction.y, sq_nonneg ray.direction.z, sq_abs ray.direction.x]
    have hy : ray.direction.y = 0 := by nlinarith [sq_nonneg ray.direction.x, sq_nonneg ray.direction.y, sq_nonneg ray.direction.z]
    have hz : ray.direction.z = 0 := by nlinarith [sq_nonneg ray.direction.x, sq_nonneg ray.direction.y, sq_nonneg ray.direction.z]
    have hd0 : hitDiscriminant s ray = 0 := by
      simp only [hitDiscriminant, RVec3.dot, RVec3.magnitude2, RVec3.sub]
      rw [hx, hy, hz]
      ring
    rw [hd0] at hd
    exact lt_irrefl 0 hd

theorem hitDiscriminant_eq (s : Sphere) (ray : Ray) :
    hitDiscriminant s ray =
      ((ray.origin.sub s.center).dot ray.direction) *
        ((ray.origin.sub s.center).dot ray.direction) -
      ray.direction.magnitude2 *
        ((ray.origin.sub s.center).magnitude2 - s.radius * s.radius) := rfl

theorem meets_root_char (s : Sphere) (ray : Ray)
    (hd : 0 < hitDiscriminant s ray) (t : ℝ) :
    s.meetsAt ray t ↔ t = hitRoot2 s ray ∨ t = hitRoot1 s ray := by
  have ha : 0 < ray.direction.magnitude2 := disc_pos_imp_dir_pos s ray hd
  have hrt : Real.sqrt (hitDiscriminant s ray) * Real.sqrt (hitDiscriminant s ray) =
      hitDiscriminant s ray := Real.mul_self_sqrt hd.le
  have h4 : discrim ray.direction.magnitude2
      (2 * ((ray.origin.sub s.center).dot ray.direction))
      ((ray.origin.sub s.center).magnitude2 - s.radius * s.radius) =
      (2 * Real.sqrt (hitDiscriminant s ray)) * (2 * Real.sqrt (hitDiscriminant s ray)) := by
    rw [discrim]
    have hde := hitDiscriminant_eq s ray
    linear_combination (-4 : ℝ) * hrt - 4 * hde
  have hq := quadratic_eq_zero_iff (ne_of_gt ha) h4 t
  rw [meetsAt_iff_quadratic, hq]
  have e2 : (-(2 * ((ray.origin.sub s.center).dot ray.direction)) +
      2 * Real.sqrt (hitDiscriminant s ray)) / (2 * ray.direction.magnitude2) =
      hitRoot2 s ray := by
    unfold hitRoot2
    rw [div_eq_div_iff (by positivity) (ne_of_gt ha)]
    ring
  have e1 : (-(2 * ((ray.origin.sub s.center).dot ray.direction)) -
      2 * Real.sqrt (hitDiscriminant s ray)) / (2 * ray.direction.magnitude2) =
      hitRoot1 s ray := by
    unfold hitRoot1
    rw [div_eq_div_iff (by positivity) (ne_of_gt ha)]
    ring
  rw [e1, e2]

theorem hitRoot1_lt_hitRoot2 (s : Sphere) (ray : Ray)
    (hd : 0 < hitDiscriminant s ray) : hitRoot1 s ray < hitRoot2 s ray := by
  have ha : 0 < ray.direction.magnitude2 := disc_pos_imp_dir_pos s ray hd
  have hrtpos : 0 < Real.sqrt (hitDiscriminant s ray) := Real.sqrt_pos.mpr hd
  unfold hitRoot1 hitRoot2
  apply div_lt_div_of_pos_right ?_ ha
  linarith

theorem Sphere.hit_spec (s : Sphere) (ray : Ray) (t_min t_max : ℝ) :
    (∀ h, Sphere.hit s ray t_min t_max = some h →
      h.sphere = s ∧ h.point = ray.at h.t ∧
      Sphere.validHit s ray t_min t_max h.t ∧
      ∀ t, Sphere.validHit s ray t_min t_max t → h.t ≤ t) ∧
    (Sphere.hit s ray t_min t_max = none →
      ∀ t, ¬ Sphere.validHit s ray t_min t_max t) := by
  by_cases hd : 0 < hitDiscriminant s ray
  · have hchar := meets_root_char s ray hd
    have hord := hitRoot1_lt_hitRoot2 s ray hd
    by_cases hc1 : hitRoot1 s ray < t_max ∧ hitRoot1 s ray > t_min
    · rw [Sphere.hit_eq, if_pos hd, if_pos hc1]
      constructor
      · intro h hh
        have hrec := Option.some.inj hh
        subst hrec
        refine ⟨rfl, rfl, ⟨hd, (hchar _).mpr (Or.inr rfl), hc1.2, hc1.1⟩, ?_⟩
        intro t hv
        rcases (hchar t).mp hv.2.1 with rfl | rfl
        · exact le_of_lt hord
        · exact le_rfl
      · intro hnone
        exact Option.noConfusion hnone
    · by_cases hc2 : hitRoot2 s ray < t_max ∧ hitRoot2 s ray > t_min
      · rw [Sphere.hit_eq, if_pos hd, if_neg hc1, if_pos hc2]
        constructor
        · intro h hh
          have hrec := Option.some.inj hh
          subst hrec
          refine ⟨rfl, rfl, ⟨hd, (hchar _).mpr (Or.inl rfl), hc2.2, hc2.1⟩, ?_⟩
          intro t hv
          rcases (hchar t).mp hv.2.1 with rfl | rfl
          · exact le_rfl
          · exact absurd ⟨hv.2.2.2, hv.2.2.1⟩ hc1
        · intro hnone
          exact Option.noConfusion hnone
      · rw [Sphere.hit_eq, if_pos hd, if_neg hc1, if_neg hc2]
        refine ⟨fun h hh => Option.noConfusion hh, fun _ t hv => ?_⟩
        rcases (hchar t).mp hv.2.1 with rfl | rfl
        · exact hc2 ⟨hv.2.2.2, hv.2.2.1⟩
        · exact hc1 ⟨hv.2.2.2, hv.2.2.1⟩
  · rw [Sphere.hit_eq, if_neg hd]
    exact ⟨fun h hh => Option.noConfusion hh, fun _ t hv => hd hv.1⟩

/-- The loop body of `Scene::hit_closest_sphere`: try the sphere against
`(t_min, closest_so_far)` and shrink the window on a hit. -/
noncomputable def closestStep (ray : Ray) (t_min : ℝ)
    (acc : ℝ × Option HitRecord) (sphere : Sphere) : ℝ × Option HitRecord :=
  match Sphere.hit sphere ray t_min acc.1 with
  | some hit => (hit.t, some hit)
  | none => acc

theorem closest_fold_spec (ray : Ray) (t_min t_max : ℝ) :
    ∀ (spheres : List Sphere) (cur : ℝ) (opt : Option HitRecord),
    cur ≤ t_max →
    (opt = none → cur = t_max) →
    (∀ h0, opt = some h0 → cur = h0.t ∧ h0.point = ray.at h0.t) →
    (∀ h', (spheres.foldl (closestStep ray t_min) (cur, opt)).2 = some h' →
       (opt = some h' ∨ (h'.sphere ∈ spheres ∧
         Sphere.validHit h'.sphere ray t_min cur h'.t)) ∧
       (spheres.foldl (closestStep ray t_min) (cur, opt)).1 = h'.t ∧
       h'.point = ray.at h'.t) ∧
    (∀ s ∈ spheres, ∀ t, Sphere.validHit s ray t_min cur t →
       ∃ h', (spheres.foldl (closestStep ray t_min) (cur, opt)).2 = some h' ∧
         h'.t ≤ t) ∧
    ((spheres.foldl (closestStep ray t_min) (cur, opt)).2 = none →
       opt = none ∧ ∀ s ∈ spheres, ∀ t, ¬ Sphere.validHit s ray t_min cur t) ∧
    (spheres.foldl (closestStep ray t_min) (cur, opt)).1 ≤ cur := by
  intro spheres
  induction spheres with
  | nil =>
    intro cur opt hcur hnone hsome
    refine ⟨?_, ?_, ?_, le_rfl⟩
    · intro h' hh'
      exact ⟨Or.inl hh', (hsome h' hh').1, (hsome h' hh').2⟩
    · intro s hs
      simp at hs
    · intro hn
      exact ⟨hn, fun s hs => by simp at hs⟩
  | cons s rest ih =>
    intro cur opt hcur hnone hsome
    rcases hhit : Sphere.hit s ray t_min cur with - | h0
    · have hstep : closestStep ray t_min (cur, opt) s = (cur, opt) := by
        simp [closestStep, hhit]
      rw [List.foldl_cons, hstep]
      obtain ⟨C1, C2, C3, C4⟩ := ih cur opt hcur hnone hsome
      refine ⟨?_, ?_, ?_, C4⟩
      · intro h' hh'
        obtain ⟨c1a, c1b, c1c⟩ := C1 h' hh'
        refine ⟨?_, c1b, c1c⟩
        rcases c1a with heq | ⟨hm, hv⟩
        · exact Or.inl heq
        · exact Or.inr ⟨List.mem_cons_of_mem _ hm, hv⟩
      · intro x hx t hv
        rcases List.mem_cons.mp hx with rfl | hx'
        · exact absurd hv ((Sphere.hit_spec x ray t_min cur).2 hhit t)
        · exact C2 x hx' t hv
      · intro hnone'
        obtain ⟨ha1, ha2⟩ := C3 hnone'
        refine ⟨ha1, ?_⟩
        intro x hx t
        rcases List.mem_cons.mp hx with rfl | hx'
        · exact (Sphere.hit_spec x ray t_min cur).2 hhit t
        · exact ha2 x hx' t
    · obtain ⟨hsph, hpt, hval, hmin⟩ := (Sphere.hit_spec s ray t_min cur).1 h0 hhit
      have hstep : closestStep ray t_min (cur, opt) s = (h0.t, some h0) := by
        simp [closestStep, hhit]
      rw [List.foldl_cons, hstep]
      have hh0cur : h0.t < cur := hval.2.2.2
      obtain ⟨C1, C2, C3, C4⟩ := ih h0.t (some h0) (by linarith)
        (fun hc => Option.noConfusion hc)
        (fun hh hhh => by cases Option.some.inj hhh; exact ⟨rfl, hpt⟩)
      have hsome3 : ∃ h', (rest.foldl (closestStep ray t_min) (h0.t, some h0)).2 = some h' := by
        rcases hx : (rest.foldl (closestStep ray t_min) (h0.t, some h0)).2 with - | h'
        · obtain ⟨habs, -⟩ := C3 hx
          exact Option.noConfusion habs
        · exact ⟨h', rfl⟩
      refine ⟨?_, ?_, ?_, by linarith⟩
      · intro h' hh'
        obtain ⟨c1a, c1b, c1c⟩ := C1 h' hh'
        refine ⟨?_, c1b, c1c⟩
        rcases c1a with heq | ⟨hm, hv⟩
        · cases Option.some.inj heq
          refine Or.inr ⟨?_, ?_⟩
          · rw [hsph]
            exact List.mem_cons_self _ _
          · rw [hsph]
            exact hval
        · exact Or.inr ⟨List.mem_cons_of_mem _ hm,
            ⟨hv.1, hv.2.1, hv.2.2.1, lt_trans hv.2.2.2 hh0cur⟩⟩
      · intro x hx t hv
        rcases List.mem_cons.mp hx with rfl | hx'
        · have hle := hmin t hv
          obtain ⟨h', hres⟩ := hsome3
          obtain ⟨-, c1b, -⟩ := C1 h' hres
          exact ⟨h', hres, le_trans (c1b ▸ C4) hle⟩
        · by_cases hth : t < h0.t
          · exact C2 x hx' t ⟨hv.1, hv.2.1, hv.2.2.1, hth⟩
          · push_neg at hth
            obtain ⟨h', hres⟩ := hsome3
            obtain ⟨-, c1b, -⟩ := C1 h' hres
            exact ⟨h', hres, le_trans (c1b ▸ C4) hth⟩
      · intro hnone'
        obtain ⟨habs, -⟩ := C3 hnone'
        exact Option.noConfusion habs

/-- C5: `Scene::hit_closest_sphere` scans all spheres linearly (the gizmo
sphere participating like any other) and returns the hit whose parameter is
the smallest valid root strictly inside `(t_min, t_max)` over all spheres;
it returns `None` exactly when no sphere has such a root. -/
theorem C5_closest_hit (scene : Scene) (ray : Ray) (t_min t_max : ℝ) :
    (∀ h, Scene.hit_closest_sphere scene ray t_min t_max = some h →
      h.sphere ∈ scene.spheres ∧
      Sphere.validHit h.sphere ray t_min t_max h.t ∧
      h.point = ray.at h.t ∧
      ∀ s ∈ scene.spheres, ∀ t, Sphere.validHit s ray t_min t_max t → h.t ≤ t) ∧
    (Scene.hit_closest_sphere scene ray t_min t_max = none ↔
      ∀ s ∈ scene.spheres, ∀ t, ¬ Sphere.validHit s ray t_min t_max t) := by
  obtain ⟨C1, C2, C3, C4⟩ := closest_fold_spec ray t_min t_max scene.spheres t_max none
    le_rfl (fun _ => rfl) (fun h0 hh => Option.noConfusion hh)
  have heq : Scene.hit_closest_sphere scene ray t_min t_max =
      (scene.spheres.foldl (closestStep ray t_min) (t_max, none)).2 := rfl
  constructor
  · intro h hh
    rw [heq] at hh
    obtain ⟨c1a, c1b, c1c⟩ := C1 h hh
    rcases c1a with habs | ⟨hm, hv⟩
    · exact Option.noConfusion habs
    · refine ⟨hm, hv, c1c, ?_⟩
      intro s hs t hv'
      obtain ⟨h', hres, hle⟩ := C2 s hs t hv'
      rw [hh] at hres
      cases Option.some.inj hres
      exact hle
  · rw [heq]
    constructor
    · intro hn
      exact (C3 hn).2
    · intro hall
      rcases hx : (scene.spheres.foldl (closestStep ray t_min) (t_max, none)).2 with - | h'
      · rfl
      · obtain ⟨c1a, -, -⟩ := C1 h' hx
        rcases c1a with habs | ⟨hm, hv⟩
        · exact Option.noConfusion habs
        · exact absurd hv (hall _ hm h'.t)

/-- The sphere hit by the witness ray. -/
noncomputable def wHitSphere : Sphere :=
  { uuid := 11, label := none, center := ⟨5, 0, 0⟩, radius := 1,
    albedo := ⟨0, 0, 0⟩, material := Material.Diffuse }

/-- A ray from the origin along the positive X axis. -/
noncomputable def wRay : Ray :=
  { origin := ⟨0, 0, 0⟩, direction := ⟨1, 0, 0⟩ }

/-- A default camera for the witness scenes. -/
noncomputable def wCamera : Camera :=
  { origin := ⟨0, 0, 0⟩, forward := ⟨0, 0, -1⟩, right := ⟨1, 0, 0⟩,
    up := ⟨0, 1, 0⟩, focal_length := 1, vfov := 75 }

/-- A scene holding only `wHitSphere`. -/
noncomputable def wHitScene : Scene :=
  { camera := wCamera, spheres := [wHitSphere],
    selected_sphere := none, triangles := [], bvh := ⟨[], [], 0⟩ }

theorem wHit_disc : hitDiscriminant wHitSphere wRay = 1 := by
  simp only [hitDiscriminant, RVec3.sub, RVec3.dot, RVec3.magnitude2, wHitSphere, wRay]
  norm_num

theorem wHit_root1 : hitRoot1 wHitSphere wRay = 4 := by
  simp only [hitRoot1, wHit_disc, Real.sqrt_one]
  simp only [wHitSphere, wRay, RVec3.sub, RVec3.dot, RVec3.magnitude2]
  norm_num

theorem wHit_run :
    Scene.hit_closest_sphere wHitScene wRay 0 100 =
      some { point := wRay.at 4, t := 4, sphere := wHitSphere } := by
  have hhit1 : Sphere.hit wHitSphere wRay 0 100 =
      some { point := wRay.at 4, t := 4, sphere := wHitSphere } := by
    rw [Sphere.hit_eq, if_pos (by rw [wHit_disc]; norm_num),
      if_pos (by rw [wHit_root1]; norm_num), wHit_root1]
  show (List.foldl (closestStep wRay 0) ((100 : ℝ), none) [wHitSphere]).2 = _
  rw [List.foldl_cons, List.foldl_nil]
  simp only [closestStep, hhit1]

/-- Witness for `C5_closest_hit` at a concrete scene and ray: the returned
parameter 4 is minimal among all valid hit parameters. -/
theorem C5_witness :
    Scene.hit_closest_sphere wHitScene wRay 0 100 =
      some { point := wRay.at 4, t := 4, sphere := wHitSphere } ∧
      ({ point := wRay.at 4, t := 4, sphere := wHitSphere } : HitRecord).sphere ∈
        wHitScene.spheres ∧
      Sphere.validHit wHitSphere wRay 0 100 4 ∧
      ∀ s ∈ wHitScene.spheres, ∀ t, Sphere.validHit s wRay 0 100 t → (4 : ℝ) ≤ t := by
  have h := (C5_closest_hit wHitScene wRay 0 100).1 _ wHit_run
  exact ⟨wHit_run, h.1, h.2.1, h.2.2.2⟩

/-! ## Claims C8 and C10: the gizmo sync -/

/-- A gizmo-labelled sphere. -/
noncomputable def cexGizmo : Sphere :=
  { uuid := 0, label := some gizmoLabel, center := ⟨0, 0, 0⟩, radius := 1,
    albedo := ⟨0, 0, 0⟩, material := Material.Gizmo }

/-- A selected sphere with a center different from the gizmo's. -/
noncomputable def cexSelected : Sphere :=
  { uuid := 1, label := none, center := ⟨5, 0, 0⟩, radius := 2,
    albedo := ⟨0, 0, 0⟩, material := Material.Diffuse }

/-- A fixed camera for concrete scenes. -/
noncomputable def cexCamera : Camera :=
  { origin := ⟨0, 0, 0⟩, forward := ⟨0, 0, -1⟩, right := ⟨1, 0, 0⟩,
    up := ⟨0, 1, 0⟩, focal_length := 1, vfov := 75 }

/-- A scene whose gizmo-labelled sphere precedes the selected sphere in the
list. -/
noncomputable def cexScene : Scene :=
  { camera := cexCamera, spheres := [cexGizmo, cexSelected],
    selected_sphere := some 1, triangles := [], bvh := ⟨[], [], 0⟩ }

/-- C8 is refuted: with the gizmo-labelled sphere placed before the selected
sphere in the list, `Scene::update` returns `None` (the single shared
iterator only searches for the gizmo after the selected sphere) and leaves
the gizmo's center untouched, different from the selected sphere's center —
the sync does not happen "wherever the two spheres sit in the list". -/
theorem C8_counterexample :
    Scene.update cexScene = none ∧
      (Scene.updateRun cexScene).spheres[0]? = some cexGizmo ∧
      cexGizmo.label = some gizmoLabel ∧
      (Scene.updateRun cexScene).spheres[1]? = some cexSelected ∧
      cexGizmo.center.x ≠ cexSelected.center.x := by
  refine ⟨rfl, rfl, rfl, rfl, ?_⟩
  show (0 : ℝ) ≠ 5
  norm_num

/-- C8 (amended): `Scene::update` re-syncs the gizmo to the live selected
sphere whenever the gizmo-labelled sphere occurs somewhere after the selected
sphere in the sphere list: the gizmo's center becomes the selected sphere's
current center and its radius the selected sphere's radius + 0.01.  (When the
gizmo precedes the selected sphere, the call returns `None` and changes
nothing, as `C8_counterexample` shows.) -/
theorem C8_gizmo_sync (scene : Scene) (sel si gj : ℕ)
    (hsel : scene.selected_sphere = some sel)
    (hsi : scene.spheres.findIdx? (fun s => s.uuid == sel) = some si)
    (hgj : (scene.spheres.drop (si + 1)).findIdx?
      (fun s => s.label == some gizmoLabel) = some gj) :
    ∃ scene' sphere gizmo,
      Scene.update scene = some scene' ∧
      scene.spheres[si]? = some sphere ∧
      scene.spheres[si + 1 + gj]? = some gizmo ∧
      gizmo.label = some gizmoLabel ∧
      scene'.spheres[si + 1 + gj]? =
        some { gizmo with center := sphere.center, radius := sphere.radius + 0.01 } := by
  obtain ⟨-, hsilen, a, ha, -⟩ := findIdx?_some_spec hsi
  obtain ⟨-, hgjlen, g, hg, hpg⟩ := findIdx?_some_spec hgj
  have hsphere : scene.spheres[si]? = some a := by simpa using ha
  have hgizmo : scene.spheres[si + 1 + gj]? = some g := by
    have h2 : (scene.spheres.drop (si + 1))[gj]? = some g := by simpa using hg
    rw [List.getElem?_drop] at h2
    exact h2
  have hglabel : g.label = some gizmoLabel := by
    simpa using hpg
  have hlt : si + 1 + gj < scene.spheres.length := by
    obtain ⟨hl, -⟩ := List.getElem?_eq_some.mp hgizmo
    exact hl
  refine ⟨{ scene with spheres := scene.spheres.set (si + 1 + gj) { g with center := a.center, radius := a.radius + 0.01 } },
    a, g, ?_, hsphere, hgizmo, hglabel, ?_⟩
  · simp only [Scene.update, hsel, hsi, hgj, hsphere, hgizmo]
  · show (scene.spheres.set (si + 1 + gj) _)[si + 1 + gj]? = _
    rw [List.getElem?_set_self hlt]

/-- The selected sphere for the witness scenes, sitting before the gizmo. -/
noncomputable def wSelected : Sphere :=
  { uuid := 3, label := none, center := ⟨1, 2, 3⟩, radius := 2,
    albedo := ⟨0, 0, 0⟩, material := Material.Diffuse }

/-- The gizmo sphere for the witness scenes, sitting after the selected one. -/
noncomputable def wGizmo : Sphere :=
  { uuid := 4, label := some gizmoLabel, center := ⟨0, 0, 0⟩, radius := 9,
    albedo := ⟨0, 0, 0⟩, material := Material.Gizmo }

/-- A scene whose gizmo-labelled sphere follows the selected sphere. -/
noncomputable def wScene : Scene :=
  { camera := cexCamera, spheres := [wSelected, wGizmo],
    selected_sphere := some 3, triangles := [], bvh := ⟨[], [], 0⟩ }

/-- Witness for `C8_gizmo_sync` at a concrete scene. -/
theorem C8_witness :
    wScene.selected_sphere = some 3 ∧
      wScene.spheres.findIdx? (fun s => s.uuid == 3) = some 0 ∧
      (wScene.spheres.drop 1).findIdx? (fun s => s.label == some gizmoLabel) = some 0 ∧
      ∃ scene' sphere gizmo,
        Scene.update wScene = some scene' ∧
        wScene.spheres[0]? = some sphere ∧
        wScene.spheres[0 + 1 + 0]? = some gizmo ∧
        gizmo.label = some gizmoLabel ∧
        scene'.spheres[0 + 1 + 0]? =
          some { gizmo with center := sphere.center, radius := sphere.radius + 0.01 } :=
  ⟨rfl, rfl, rfl, C8_gizmo_sync wScene 3 0 0 rfl rfl rfl⟩

/-- C10: `Scene::update` mutates at most the center and radius of a
gizmo-labelled sphere: on a `Some` return the camera, selection, triangle
list, BVH, every other sphere, and every other field of the updated sphere
(uuid, label, albedo, material) are unchanged; on a `None` return the caller
observes the scene completely unchanged (in this embedding `updateRun`
returns the untouched scene, mirroring that the Rust method performs no
mutation before any of its early `None` returns). -/
theorem C10_update_frame (scene : Scene) :
    (Scene.update scene = none → Scene.updateRun scene = scene) ∧
    ∀ scene', Scene.update scene = some scene' →
      scene'.camera = scene.camera ∧
      scene'.selected_sphere = scene.selected_sphere ∧
      scene'.triangles = scene.triangles ∧
      scene'.bvh = scene.bvh ∧
      scene'.spheres.length = scene.spheres.length ∧
      ∃ (gi : ℕ) (g : Sphere), scene.spheres[gi]? = some g ∧ g.label = some gizmoLabel ∧
        (∀ k : ℕ, k ≠ gi → scene'.spheres[k]? = scene.spheres[k]?) ∧
        ∃ (cen : RVec3) (rad : ℝ), scene'.spheres[gi]? = some { g with center := cen, radius := rad } := by
  constructor
  · intro h
    simp [Scene.updateRun, h]
  · intro scene' h
    unfold Scene.update at h
    rcases hs : scene.selected_sphere with - | sel
    · simp only [hs] at h
      exact Option.noConfusion h
    simp only [hs] at h
    rcases hsi : scene.spheres.findIdx? (fun s => s.uuid == sel) with - | si
    · simp only [hsi] at h
      exact Option.noConfusion h
    simp only [hsi] at h
    rcases hgj : (scene.spheres.drop (si + 1)).findIdx?
        (fun s => s.label == some gizmoLabel) with - | gj
    · simp only [hgj] at h
      exact Option.noConfusion h
    simp only [hgj] at h
    obtain ⟨-, -, g, hg, hpg⟩ := findIdx?_some_spec hgj
    have hgizmo : scene.spheres[si + 1 + gj]? = some g := by
      have h2 : (scene.spheres.drop (si + 1))[gj]? = some g := by simpa using hg
      rw [List.getElem?_drop] at h2
      exact h2
    obtain ⟨-, hsilen, a, ha, -⟩ := findIdx?_some_spec hsi
    have hsphere : scene.spheres[si]? = some a := by simpa using ha
    simp only [hsphere, hgizmo] at h
    have hscene' : scene' = { camera := scene.camera, spheres := scene.spheres.set (si + 1 + gj) { g with center := a.center, radius := a.radius + 0.01 }, selected_sphere := some sel, triangles := scene.triangles, bvh := scene.bvh } :=
      (Option.some.inj h).symm
    subst hscene'
    have hlt : si + 1 + gj < scene.spheres.length := by
      obtain ⟨hl, -⟩ := List.getElem?_eq_some.mp hgizmo
      exact hl
    refine ⟨rfl, rfl, rfl, rfl, by simp, si + 1 + gj, g, hgizmo, by simpa using hpg,
      ?_, a.center, a.radius + 0.01, ?_⟩
    · intro k hk
      exact List.getElem?_set_ne (by omega)
    · show (scene.spheres.set (si + 1 + gj) _)[si + 1 + gj]? = _
      rw [List.getElem?_set_self hlt]

/-- The witness scene after a successful `update`: the gizmo carries the
selected sphere's center and its radius plus 0.01. -/
noncomputable def wSceneAfter : Scene :=
  { camera := cexCamera,
    spheres := [wSelected,
      { uuid := 4, label := some gizmoLabel, center := ⟨1, 2, 3⟩,
        radius := (2 : ℝ) + 0.01, albedo := ⟨0, 0, 0⟩, material := Material.Gizmo }],
    selected_sphere := some 3, triangles := [], bvh := ⟨[], [], 0⟩ }

/-- Witness for `C10_update_frame` at a concrete scene. -/
theorem C10_witness :
    Scene.update wScene = some wSceneAfter ∧
      (wSceneAfter.camera = wScene.camera ∧
      wSceneAfter.selected_sphere = wScene.selected_sphere ∧
      wSceneAfter.triangles = wScene.triangles ∧
      wSceneAfter.bvh = wScene.bvh ∧
      wSceneAfter.spheres.length = wScene.spheres.length ∧
      ∃ (gi : ℕ) (g : Sphere), wScene.spheres[gi]? = some g ∧ g.label = some gizmoLabel ∧
        (∀ k : ℕ, k ≠ gi → wSceneAfter.spheres[k]? = wScene.spheres[k]?) ∧
        ∃ (cen : RVec3) (rad : ℝ), wSceneAfter.spheres[gi]? = some { g with center := cen, radius := rad }) :=
  ⟨rfl, (C10_update_frame wScene).2 wSceneAfter rfl⟩

end PathTracer
